import Mathlib

/-!
Verification of the message chunking and sequential delivery protocol of
`src/telegram.ts` (functions `splitMessageIntoChunks` and
`sendLongMessageToTelegram`).

Strings are modelled as `List Char`.  The JavaScript regular expression
class `\s` (used both by `String.prototype.trim` and by the tokenizing
split `message.split(/(\s+)/)`) is modelled by `isWS`.  The outbound
transport `sendTelegramMessage` is modelled by an oracle
`Nat → TransportResult` giving the outcome of the n-th transport call;
the pipeline additionally returns the trace of observable events
(transport calls with the exact text passed, and rate-limit delays).
-/

set_option maxRecDepth 20000

/-- JavaScript `\s` (ECMAScript WhiteSpace ∪ LineTerminator) on a code point. -/
def isWS (c : Char) : Bool :=
  let n := c.toNat
  n = 0x9 || n = 0xa || n = 0xb || n = 0xc || n = 0xd || n = 0x20 ||
  n = 0xa0 || n = 0x1680 || (0x2000 ≤ n && n ≤ 0x200a) ||
  n = 0x2028 || n = 0x2029 || n = 0x202f || n = 0x205f || n = 0x3000 || n = 0xfeff

/-- Negation of `isWS`: the character is not JavaScript whitespace. -/
def nonWS (c : Char) : Bool := !(isWS c)

/-- JavaScript `String.prototype.trim`: strip whitespace from both ends. -/
def trimC (l : List Char) : List Char :=
  ((l.dropWhile isWS).reverse.dropWhile isWS).reverse

/-- Maximal runs of characters of equal whitespace-class, in order.
`"a  b"` ↦ `["a", "  ", "b"]`. -/
def wsRuns : List Char → List (List Char)
  | [] => []
  | c :: cs =>
    match wsRuns cs with
    | [] => [[c]]
    | [] :: rs => [c] :: [] :: rs
    | (d :: r) :: rs =>
      if isWS c = isWS d then (c :: d :: r) :: rs else [c] :: (d :: r) :: rs

/-- JavaScript `message.split(/(\s+)/)` (split on whitespace runs, keeping the
separators): the runs of `wsRuns`, with an empty piece added in front when the
string starts with whitespace, an empty piece added at the back when it ends
with whitespace, and `[""]` for the empty string. -/
def jsSplitWs (l : List Char) : List (List Char) :=
  match l with
  | [] => [[]]
  | c :: cs =>
    let rs := wsRuns (c :: cs)
    let rs1 := if isWS c then ([] : List Char) :: rs else rs
    if isWS ((c :: cs).getLast (List.cons_ne_nil c cs)) then rs1 ++ [[]] else rs1

/-- Fuel-driven worker for `sliceBy` (the fuel is an upper bound on the number
of slices, which `sliceBy` instantiates with the length of the list). -/
def sliceGo (n : Nat) : Nat → List Char → List (List Char)
  | 0, _ => []
  | _ + 1, [] => []
  | fuel + 1, c :: cs => (c :: cs).take n :: sliceGo n fuel ((c :: cs).drop n)

/-- The character-splitting fallback of `splitMessageIntoChunks`:
`for (let i = 0; i < word.length; i += maxChunkSize) chunks.push(word.slice(i, i + maxChunkSize))`. -/
def sliceBy (n : Nat) (l : List Char) : List (List Char) := sliceGo n l.length l

/-- State of the chunking loop: emitted chunks and the running buffer. -/
structure ChunkState where
  chunks : List (List Char)
  cur : List Char
deriving DecidableEq

/-- One iteration of the word loop of `splitMessageIntoChunks`
(`src/telegram.ts` lines 89-109), processing one token `w`. -/
def stepWord (max : Nat) (st : ChunkState) (w : List Char) : ChunkState :=
  if max < st.cur.length + w.length then
    let st1 : ChunkState :=
      if trimC st.cur = [] then st else ⟨st.chunks ++ [trimC st.cur], []⟩
    if max < w.length then
      ⟨st1.chunks ++ sliceBy max w, st1.cur⟩
    else
      ⟨st1.chunks, w⟩
  else
    ⟨st.chunks, st.cur ++ w⟩

/-- The final flush after the word loop: `if (currentChunk.trim()) chunks.push(currentChunk.trim())`. -/
def finChunks (st : ChunkState) : List (List Char) :=
  if trimC st.cur = [] then st.chunks else st.chunks ++ [trimC st.cur]

/-- Function `splitMessageIntoChunks` of `src/telegram.ts` (lines 82-117). -/
def splitMessageIntoChunks (message : List Char) (maxChunkSize : Nat) : List (List Char) :=
  finChunks ((jsSplitWs message).foldl (stepWord maxChunkSize) ⟨[], []⟩)

-- ------------------------------------------------------------------------
-- Delivery pipeline (`sendLongMessageToTelegram`, lines 127-179)
-- ------------------------------------------------------------------------

/-- Constant `TELEGRAM_MESSAGE_MAX_LENGTH` of `src/telegram.ts`. -/
def TELEGRAM_MESSAGE_MAX_LENGTH : Nat := 4096

/-- Constant `MESSAGE_SAFETY_BUFFER` of `src/telegram.ts`. -/
def MESSAGE_SAFETY_BUFFER : Nat := 200

/-- Fuel-driven worker for `natDecimal`. -/
def natDecimalGo : Nat → Nat → List Char
  | 0, _ => []
  | fuel + 1, n =>
    if n < 10 then [Nat.digitChar n]
    else natDecimalGo fuel (n / 10) ++ [Nat.digitChar (n % 10)]

/-- Decimal representation of a natural number, as produced by JavaScript
template interpolation `${n}`. -/
def natDecimal (n : Nat) : List Char := natDecimalGo (n + 1) n

/-- Outcome of one call to the transport `sendTelegramMessage`:
`{success: true}` or `{success: false, error}`. -/
inductive TransportResult where
  | ok
  | err (msg : List Char)
deriving DecidableEq

/-- The `TelegramSendResult` record `{success, error?, sentParts?}`. -/
structure SendResult where
  success : Bool
  error : Option (List Char) := none
  sentParts : Option Nat := none
deriving DecidableEq

/-- A transport result, converted to the `TelegramSendResult` that
`sendTelegramMessage` returns. -/
def transportToResult : TransportResult → SendResult
  | .ok => { success := true }
  | .err e => { success := false, error := some e }

/-- Observable events of a delivery: a transport call carrying the exact text
passed to `sendTelegramMessage`, or the fixed inter-chunk rate-limit delay
(`setTimeout(..., RATE_LIMIT_DELAY_MS)`). -/
inductive Event where
  | call (text : List Char)
  | delay
deriving DecidableEq

/-- Texts of the transport calls of a trace, in order. -/
def callsOf : List Event → List (List Char)
  | [] => []
  | .call t :: es => t :: callsOf es
  | .delay :: es => callsOf es

/-- Whether an event is the inter-chunk delay. -/
def isDelay : Event → Bool
  | .delay => true
  | .call _ => false

/-- The header `Part ${partNumber}/${totalParts}:`. -/
def partHeader (partNumber total : Nat) : List Char :=
  "Part ".data ++ natDecimal partNumber ++ "/".data ++ natDecimal total ++ ":".data

/-- The transmitted form of a chunk: `${header}\n\n${chunk}`. -/
def decorate (partNumber total : Nat) (chunk : List Char) : List Char :=
  partHeader partNumber total ++ "\n\n".data ++ chunk

/-- The error `Chunk ${partNumber} exceeds Telegram's message length limit`. -/
def chunkTooLargeMsg (partNumber : Nat) : List Char :=
  "Chunk ".data ++ natDecimal partNumber ++
    " exceeds Telegram's message length limit".data

/-- The error `Failed to send part ${partNumber}/${totalParts}: ${error}`. -/
def failMsg (partNumber total : Nat) (e : List Char) : List Char :=
  "Failed to send part ".data ++ natDecimal partNumber ++ "/".data ++
    natDecimal total ++ ": ".data ++ e

/-- The error `Message cannot be empty`. -/
def emptyMessageError : List Char := "Message cannot be empty".data

/-- The chunk loop of `sendLongMessageToTelegram` (lines 146-173): for each
chunk, build the transmitted form, abort if it exceeds the hard ceiling, call
the transport, abort on failure, and delay when this is not the last chunk.
`idx` is the current `chunkIndex` and `tr` the trace accumulated so far. -/
def sendChunksLoop (oracle : Nat → TransportResult) (total : Nat) :
    List (List Char) → Nat → List Event → SendResult × List Event
  | [], _, tr => ({ success := true, sentParts := some total }, tr)
  | c :: rest, idx, tr =>
    let chunkWithHeader := decorate (idx + 1) total c
    if TELEGRAM_MESSAGE_MAX_LENGTH < chunkWithHeader.length then
      ({ success := false, error := some (chunkTooLargeMsg (idx + 1)) }, tr)
    else
      match oracle idx with
      | .err e =>
        ({ success := false, error := some (failMsg (idx + 1) total e) },
          tr ++ [.call chunkWithHeader])
      | .ok =>
        sendChunksLoop oracle total rest (idx + 1)
          (if idx + 1 < total then tr ++ [.call chunkWithHeader, .delay]
           else tr ++ [.call chunkWithHeader])

/-- Function `sendLongMessageToTelegram` of `src/telegram.ts` (lines 127-179), with the
transport modelled by `oracle` (outcome of the n-th transport call).  Returns
the `TelegramSendResult` and the trace of transport calls and delays. -/
def sendLongMessageToTelegram (oracle : Nat → TransportResult)
    (message : List Char) : SendResult × List Event :=
  let trimmedMessage := trimC message
  if trimmedMessage = [] then
    ({ success := false, error := some emptyMessageError }, [])
  else if trimmedMessage.length ≤ TELEGRAM_MESSAGE_MAX_LENGTH - MESSAGE_SAFETY_BUFFER then
    (transportToResult (oracle 0), [.call trimmedMessage])
  else
    let messageChunks :=
      splitMessageIntoChunks trimmedMessage
        (TELEGRAM_MESSAGE_MAX_LENGTH - MESSAGE_SAFETY_BUFFER)
    sendChunksLoop oracle messageChunks.length messageChunks 0 []

/-- A transport that always succeeds. -/
def okOracle : Nat → TransportResult := fun _ => .ok

/-- A transport that succeeds on the first call and fails with `boom`
afterwards. -/
def failSecondOracle : Nat → TransportResult :=
  fun i => if i = 0 then .ok else .err ( "boom".data)

/-- The chunk list `messageChunks` the pipeline computes for a message
(line 143): the trimmed message split with the effective maximum as chunk
size. -/
def messageChunks (m : List Char) : List (List Char) :=
  splitMessageIntoChunks (trimC m)
    (TELEGRAM_MESSAGE_MAX_LENGTH - MESSAGE_SAFETY_BUFFER)

/-- The transmitted forms of a list of chunks starting at index `idx`, in
order, each decorated with its part header. -/
def decorList (total : Nat) : Nat → List (List Char) → List (List Char)
  | _, [] => []
  | idx, c :: rest => decorate (idx + 1) total c :: decorList total (idx + 1) rest

/-- The trace produced by the chunk loop when every transport call succeeds:
each decorated chunk is sent, with a delay after every send except the last. -/
def decorTrace (total : Nat) : Nat → List (List Char) → List Event
  | _, [] => []
  | idx, c :: rest =>
    Event.call (decorate (idx + 1) total c) ::
      ((if idx + 1 < total then [Event.delay] else []) ++ decorTrace total (idx + 1) rest)

/-- Calls interleaved with single delays: a delay between every pair of
consecutive calls and none after the last. -/
def callsWithDelays : List (List Char) → List Event
  | [] => []
  | [t] => [.call t]
  | t :: t' :: ts => .call t :: .delay :: callsWithDelays (t' :: ts)

-- ------------------------------------------------------------------------
-- Lemmas: trimming and whitespace filtering
-- ------------------------------------------------------------------------

theorem length_dropWhile_isWS_le (l : List Char) :
    (l.dropWhile isWS).length ≤ l.length := by
  induction l with
  | nil => simp
  | cons c cs ih =>
    rw [List.dropWhile_cons]
    split
    · exact Nat.le_trans ih (Nat.le_succ _)
    · simp

/-- Trimming never lengthens a string. -/
theorem trimC_length_le (l : List Char) : (trimC l).length ≤ l.length := by
  unfold trimC
  calc ((l.dropWhile isWS).reverse.dropWhile isWS).reverse.length
      = ((l.dropWhile isWS).reverse.dropWhile isWS).length := by simp
    _ ≤ (l.dropWhile isWS).reverse.length := length_dropWhile_isWS_le _
    _ = (l.dropWhile isWS).length := by simp
    _ ≤ l.length := length_dropWhile_isWS_le l

theorem filter_dropWhile_isWS (l : List Char) :
    (l.dropWhile isWS).filter nonWS = l.filter nonWS := by
  induction l with
  | nil => rfl
  | cons c cs ih =>
    rw [List.dropWhile_cons]
    by_cases h : isWS c
    · simp only [h, if_true, ih, List.filter_cons]
      have : nonWS c = false := by simp [nonWS, h]
      simp [this]
    · simp [h]

/-- Trimming only removes whitespace: the non-whitespace characters are kept. -/
theorem trimC_filter (l : List Char) :
    (trimC l).filter nonWS = l.filter nonWS := by
  unfold trimC
  rw [List.filter_reverse, filter_dropWhile_isWS, List.filter_reverse,
    List.reverse_reverse, filter_dropWhile_isWS]

theorem filter_eq_nil_of_trimC_eq_nil {l : List Char} (h : trimC l = []) :
    l.filter nonWS = [] := by
  rw [← trimC_filter, h]; rfl

theorem trimC_ne_nil_of_filter {l : List Char} (h : l.filter nonWS ≠ []) :
    trimC l ≠ [] := fun hc => h (filter_eq_nil_of_trimC_eq_nil hc)

-- ------------------------------------------------------------------------
-- Lemmas: character slicing (`sliceBy`)
-- ------------------------------------------------------------------------

theorem sliceGo_nil (n : Nat) : ∀ fuel, sliceGo n fuel [] = []
  | 0 => rfl
  | _ + 1 => rfl

theorem sliceGo_fuel {n : Nat} (hn : 1 ≤ n) :
    ∀ f1 f2 (l : List Char), l.length ≤ f1 → l.length ≤ f2 →
      sliceGo n f1 l = sliceGo n f2 l := by
  intro f1
  induction f1 with
  | zero =>
    intro f2 l h1 _
    have : l = [] := List.length_eq_zero.mp (Nat.le_zero.mp h1)
    subst this
    rw [sliceGo_nil, sliceGo_nil]
  | succ f1 ih =>
    intro f2 l h1 h2
    cases l with
    | nil => rw [sliceGo_nil, sliceGo_nil]
    | cons c cs =>
      cases f2 with
      | zero => simp at h2
      | succ f2 =>
        show _ :: _ = _ :: _
        congr 1
        apply ih
        · simp only [List.length_drop, List.length_cons] at h1 ⊢
          omega
        · simp only [List.length_drop, List.length_cons] at h2 ⊢
          omega

theorem sliceBy_cons {n : Nat} (hn : 1 ≤ n) (c : Char) (cs : List Char) :
    sliceBy n (c :: cs) =
      (c :: cs).take n :: sliceBy n ((c :: cs).drop n) := by
  show sliceGo n (c :: cs).length (c :: cs) = _
  simp only [List.length_cons]
  show _ :: _ = _ :: _
  congr 1
  apply sliceGo_fuel hn
  · simp only [List.length_drop, List.length_cons]; omega
  · exact Nat.le_refl _

theorem flatten_sliceGo {n : Nat} (hn : 1 ≤ n) :
    ∀ fuel (l : List Char), l.length ≤ fuel → (sliceGo n fuel l).flatten = l := by
  intro fuel
  induction fuel with
  | zero =>
    intro l h
    have : l = [] := List.length_eq_zero.mp (Nat.le_zero.mp h)
    subst this; rfl
  | succ fuel ih =>
    intro l h
    cases l with
    | nil => rfl
    | cons c cs =>
      show ((c :: cs).take n :: sliceGo n fuel ((c :: cs).drop n)).flatten = _
      rw [List.flatten_cons, ih]
      · exact List.take_append_drop n (c :: cs)
      · simp only [List.length_drop, List.length_cons]
        simp only [List.length_cons] at h
        omega

theorem flatten_sliceBy {n : Nat} (hn : 1 ≤ n) (l : List Char) :
    (sliceBy n l).flatten = l :=
  flatten_sliceGo hn l.length l (Nat.le_refl _)

theorem mem_sliceGo {n : Nat} (hn : 1 ≤ n) :
    ∀ fuel (l : List Char), l.length ≤ fuel →
      ∀ s ∈ sliceGo n fuel l, s ≠ [] ∧ s.length ≤ n := by
  intro fuel
  induction fuel with
  | zero =>
    intro l h s hs
    have : l = [] := List.length_eq_zero.mp (Nat.le_zero.mp h)
    subst this
    simp [sliceGo_nil] at hs
  | succ fuel ih =>
    intro l h s hs
    cases l with
    | nil => simp [sliceGo_nil] at hs
    | cons c cs =>
      rcases List.mem_cons.mp hs with rfl | hs'
      · constructor
        · intro hnil
          rw [List.take_eq_nil_iff] at hnil
          rcases hnil with h0 | h0
          · omega
          · exact List.cons_ne_nil c cs h0
        · rw [List.length_take]
          exact Nat.min_le_left _ _
      · apply ih ((c :: cs).drop n) _ s hs'
        simp only [List.length_drop, List.length_cons] at h ⊢
        omega

theorem mem_sliceBy {n : Nat} (hn : 1 ≤ n) {l s : List Char}
    (hs : s ∈ sliceBy n l) : s ≠ [] ∧ s.length ≤ n :=
  mem_sliceGo hn l.length l (Nat.le_refl _) s hs

theorem sliceBy_length_ge_two {n : Nat} (hn : 1 ≤ n) {l : List Char}
    (h : n < l.length) : 2 ≤ (sliceBy n l).length := by
  cases l with
  | nil => simp at h
  | cons c cs =>
    rw [sliceBy_cons hn]
    have hd : (c :: cs).drop n ≠ [] := by
      intro hnil
      have hlen := congrArg List.length hnil
      simp only [List.length_drop, List.length_cons, List.length_nil] at hlen
      simp only [List.length_cons] at h
      omega
    cases hdrop : (c :: cs).drop n with
    | nil => exact absurd hdrop hd
    | cons d ds =>
      rw [sliceBy_cons hn]
      simp only [List.length_cons]
      omega

theorem sliceBy_ne_nil {n : Nat} (hn : 1 ≤ n) {l : List Char} (h : l ≠ []) :
    sliceBy n l ≠ [] := by
  cases l with
  | nil => exact absurd rfl h
  | cons c cs => rw [sliceBy_cons hn]; simp

-- ------------------------------------------------------------------------
-- Lemmas: whitespace runs and the tokenizing split
-- ------------------------------------------------------------------------

theorem flatten_wsRuns : ∀ l : List Char, (wsRuns l).flatten = l := by
  intro l
  induction l with
  | nil => rfl
  | cons c cs ih =>
    unfold wsRuns
    cases h : wsRuns cs with
    | nil =>
      rw [h] at ih
      simp only [List.flatten_nil] at ih
      simp [← ih]
    | cons r rs =>
      rw [h] at ih
      cases r with
      | nil =>
        simp only [List.flatten_cons, List.nil_append] at ih
        simp [ih]
      | cons d r' =>
        by_cases hc : isWS c = isWS d
        · simp only [hc, if_true]
          simp only [List.flatten_cons] at ih ⊢
          simp [← ih]
        · simp only [hc, if_false]
          simp only [List.flatten_cons] at ih ⊢
          simp [← ih]

theorem nil_not_mem_wsRuns : ∀ l : List Char, [] ∉ wsRuns l := by
  intro l
  induction l with
  | nil => simp [wsRuns]
  | cons c cs ih =>
    unfold wsRuns
    cases h : wsRuns cs with
    | nil => simp
    | cons r rs =>
      rw [h] at ih
      cases r with
      | nil => exact absurd (List.mem_cons_self _ _) ih
      | cons d r' =>
        by_cases hc : isWS c = isWS d
        · simp only [hc, if_true]
          intro hmem
          rcases List.mem_cons.mp hmem with h0 | h0
          · exact List.cons_ne_nil _ _ h0.symm
          · exact ih (List.mem_cons_of_mem _ h0)
        · simp only [hc, if_false]
          intro hmem
          rcases List.mem_cons.mp hmem with h0 | h0
          · exact List.cons_ne_nil _ _ h0.symm
          · exact ih h0

theorem wsRuns_homog : ∀ l : List Char, ∀ r ∈ wsRuns l,
    ∀ x ∈ r, ∀ y ∈ r, isWS x = isWS y := by
  intro l
  induction l with
  | nil => simp [wsRuns]
  | cons c cs ih =>
    unfold wsRuns
    cases h : wsRuns cs with
    | nil =>
      intro r hr x hx y hy
      rcases List.mem_cons.mp hr with rfl | h0
      · simp only [List.mem_singleton] at hx hy
        rw [hx, hy]
      · simp at h0
    | cons r0 rs =>
      rw [h] at ih
      cases r0 with
      | nil =>
        intro r hr x hx y hy
        rcases List.mem_cons.mp hr with rfl | h0
        · simp only [List.mem_singleton] at hx hy
          rw [hx, hy]
        · exact ih r h0 x hx y hy
      | cons d r' =>
        by_cases hc : isWS c = isWS d
        · simp only [hc, if_true]
          intro r hr x hx y hy
          rcases List.mem_cons.mp hr with rfl | h0
          · have hall : ∀ z ∈ c :: d :: r', isWS z = isWS d := by
              intro z hz
              rcases List.mem_cons.mp hz with rfl | hz'
              · exact hc
              · exact ih (d :: r') (List.mem_cons_self _ _) z hz' d (List.mem_cons_self _ _)
            rw [hall x hx, hall y hy]
          · exact ih r (List.mem_cons_of_mem _ h0) x hx y hy
        · simp only [hc, if_false]
          intro r hr x hx y hy
          rcases List.mem_cons.mp hr with rfl | h0
          · simp only [List.mem_singleton] at hx hy
            rw [hx, hy]
          · exact ih r h0 x hx y hy

theorem wsRuns_first (c : Char) (cs : List Char) :
    ∃ t rs, wsRuns (c :: cs) = (c :: t) :: rs := by
  unfold wsRuns
  cases h : wsRuns cs with
  | nil => exact ⟨[], [], rfl⟩
  | cons r0 rs =>
    cases r0 with
    | nil => exact ⟨[], [] :: rs, rfl⟩
    | cons d r' =>
      by_cases hc : isWS c = isWS d
      · refine ⟨d :: r', rs, ?_⟩
        simp [hc]
      · refine ⟨[], (d :: r') :: rs, ?_⟩
        simp [hc]

theorem flatten_jsSplitWs (l : List Char) : (jsSplitWs l).flatten = l := by
  cases l with
  | nil => rfl
  | cons c cs =>
    unfold jsSplitWs
    have hf := flatten_wsRuns (c :: cs)
    by_cases h1 : isWS c <;>
      by_cases h2 : isWS ((c :: cs).getLast (List.cons_ne_nil c cs)) <;>
        simp [h1, h2, hf]

/-- On a string that neither starts nor ends with whitespace, the tokenizing
split is exactly the list of whitespace runs (no empty boundary tokens). -/
theorem jsSplitWs_eq_wsRuns {c : Char} {cs : List Char}
    (h1 : isWS c = false)
    (h2 : isWS ((c :: cs).getLast (List.cons_ne_nil c cs)) = false) :
    jsSplitWs (c :: cs) = wsRuns (c :: cs) := by
  unfold jsSplitWs
  simp [h1, h2]

-- ------------------------------------------------------------------------
-- Lemmas: one step of the chunking loop, by case
-- ------------------------------------------------------------------------

theorem stepWord_fits {max : Nat} {st : ChunkState} {w : List Char}
    (h : ¬ max < st.cur.length + w.length) :
    stepWord max st w = ⟨st.chunks, st.cur ++ w⟩ := by
  simp [stepWord, h]

theorem stepWord_push_small {max : Nat} {st : ChunkState} {w : List Char}
    (h : max < st.cur.length + w.length) (ht : trimC st.cur ≠ [])
    (hw : ¬ max < w.length) :
    stepWord max st w = ⟨st.chunks ++ [trimC st.cur], w⟩ := by
  simp [stepWord, h, ht, hw]

theorem stepWord_push_big {max : Nat} {st : ChunkState} {w : List Char}
    (h : max < st.cur.length + w.length) (ht : trimC st.cur ≠ [])
    (hw : max < w.length) :
    stepWord max st w = ⟨(st.chunks ++ [trimC st.cur]) ++ sliceBy max w, []⟩ := by
  simp [stepWord, h, ht, hw]

theorem stepWord_nopush_small {max : Nat} {st : ChunkState} {w : List Char}
    (h : max < st.cur.length + w.length) (ht : trimC st.cur = [])
    (hw : ¬ max < w.length) :
    stepWord max st w = ⟨st.chunks, w⟩ := by
  simp [stepWord, h, ht, hw]

theorem stepWord_nopush_big {max : Nat} {st : ChunkState} {w : List Char}
    (h : max < st.cur.length + w.length) (ht : trimC st.cur = [])
    (hw : max < w.length) :
    stepWord max st w = ⟨st.chunks ++ sliceBy max w, st.cur⟩ := by
  simp [stepWord, h, ht, hw]

/-- The running buffer never exceeds `max` characters. -/
theorem stepWord_cur_le {max : Nat} {st : ChunkState} (w : List Char)
    (h : st.cur.length ≤ max) : (stepWord max st w).cur.length ≤ max := by
  by_cases h1 : max < st.cur.length + w.length
  · by_cases ht : trimC st.cur = []
    · by_cases hw : max < w.length
      · rw [stepWord_nopush_big h1 ht hw]; exact h
      · rw [stepWord_nopush_small h1 ht hw]
        show w.length ≤ max
        omega
    · by_cases hw : max < w.length
      · rw [stepWord_push_big h1 ht hw]; simp
      · rw [stepWord_push_small h1 ht hw]
        show w.length ≤ max
        omega
  · rw [stepWord_fits h1]
    simp only [List.length_append]
    omega

theorem foldl_cur_le {max : Nat} :
    ∀ (ws : List (List Char)) (st : ChunkState), st.cur.length ≤ max →
      (ws.foldl (stepWord max) st).cur.length ≤ max := by
  intro ws
  induction ws with
  | nil => intro st h; exact h
  | cons w ws ih =>
    intro st h
    exact ih (stepWord max st w) (stepWord_cur_le w h)

/-- The list of emitted chunks only ever grows at the back. -/
theorem stepWord_chunks_pre {max : Nat} (st : ChunkState) (w : List Char) :
    ∃ ex, (stepWord max st w).chunks = st.chunks ++ ex := by
  by_cases h1 : max < st.cur.length + w.length
  · by_cases ht : trimC st.cur = []
    · by_cases hw : max < w.length
      · rw [stepWord_nopush_big h1 ht hw]; exact ⟨_, rfl⟩
      · rw [stepWord_nopush_small h1 ht hw]; exact ⟨[], (List.append_nil _).symm⟩
    · by_cases hw : max < w.length
      · rw [stepWord_push_big h1 ht hw]
        exact ⟨[trimC st.cur] ++ sliceBy max w, by simp⟩
      · rw [stepWord_push_small h1 ht hw]; exact ⟨_, rfl⟩
  · rw [stepWord_fits h1]; exact ⟨[], (List.append_nil _).symm⟩

theorem foldl_chunks_pre {max : Nat} :
    ∀ (ws : List (List Char)) (st : ChunkState),
      ∃ ex, (ws.foldl (stepWord max) st).chunks = st.chunks ++ ex := by
  intro ws
  induction ws with
  | nil => intro st; exact ⟨[], (List.append_nil _).symm⟩
  | cons w ws ih =>
    intro st
    obtain ⟨ex1, h1⟩ := @stepWord_chunks_pre max st w
    obtain ⟨ex2, h2⟩ := ih (stepWord max st w)
    exact ⟨ex1 ++ ex2, by rw [List.foldl_cons, h2, h1, List.append_assoc]⟩

theorem foldl_chunks_length_mono {max : Nat} (ws : List (List Char))
    (st : ChunkState) :
    st.chunks.length ≤ (ws.foldl (stepWord max) st).chunks.length := by
  obtain ⟨ex, h⟩ := @foldl_chunks_pre max ws st
  rw [h]
  simp

-- ------------------------------------------------------------------------
-- Lemmas: every emitted chunk is non-empty and within the size bound
-- ------------------------------------------------------------------------

theorem foldl_bounds {max : Nat} (hmax : 1 ≤ max) :
    ∀ (ws : List (List Char)) (st : ChunkState),
      (∀ c ∈ st.chunks, c ≠ [] ∧ c.length ≤ max) → st.cur.length ≤ max →
      ∀ c ∈ (ws.foldl (stepWord max) st).chunks, c ≠ [] ∧ c.length ≤ max := by
  intro ws
  induction ws with
  | nil => intro st hc _; exact hc
  | cons w ws ih =>
    intro st hc hcur
    apply ih (stepWord max st w) _ (stepWord_cur_le w hcur)
    intro c hcmem
    by_cases h1 : max < st.cur.length + w.length
    · by_cases ht : trimC st.cur = []
      · by_cases hw : max < w.length
        · rw [stepWord_nopush_big h1 ht hw] at hcmem
          rcases List.mem_append.mp hcmem with hm | hm
          · exact hc c hm
          · exact mem_sliceBy hmax hm
        · rw [stepWord_nopush_small h1 ht hw] at hcmem
          exact hc c hcmem
      · by_cases hw : max < w.length
        · rw [stepWord_push_big h1 ht hw] at hcmem
          rcases List.mem_append.mp hcmem with hm | hm
          · rcases List.mem_append.mp hm with hm' | hm'
            · exact hc c hm'
            · rw [List.mem_singleton] at hm'
              subst hm'
              exact ⟨ht, Nat.le_trans (trimC_length_le _) hcur⟩
          · exact mem_sliceBy hmax hm
        · rw [stepWord_push_small h1 ht hw] at hcmem
          rcases List.mem_append.mp hcmem with hm | hm
          · exact hc c hm
          · rw [List.mem_singleton] at hm
            subst hm
            exact ⟨ht, Nat.le_trans (trimC_length_le _) hcur⟩
    · rw [stepWord_fits h1] at hcmem
      exact hc c hcmem

/-- Every chunk emitted by `splitMessageIntoChunks` is non-empty and has
length at most `max`. -/
theorem splitMessageIntoChunks_bounds {max : Nat} (hmax : 1 ≤ max)
    (m : List Char) :
    ∀ c ∈ splitMessageIntoChunks m max, c ≠ [] ∧ c.length ≤ max := by
  intro c hc
  unfold splitMessageIntoChunks finChunks at hc
  set st := (jsSplitWs m).foldl (stepWord max) ⟨[], []⟩ with hst
  have hb : ∀ c ∈ st.chunks, c ≠ [] ∧ c.length ≤ max := by
    apply foldl_bounds hmax
    · intro c hc'; simp at hc'
    · simp
  have hcur : st.cur.length ≤ max := by
    apply foldl_cur_le
    simp
  by_cases ht : trimC st.cur = []
  · rw [if_pos ht] at hc
    exact hb c hc
  · rw [if_neg ht] at hc
    rcases List.mem_append.mp hc with hm | hm
    · exact hb c hm
    · rw [List.mem_singleton] at hm
      subst hm
      exact ⟨ht, Nat.le_trans (trimC_length_le _) hcur⟩

-- ------------------------------------------------------------------------
-- Lemmas: the chunker neither drops, duplicates nor reorders
-- non-whitespace characters
-- ------------------------------------------------------------------------

theorem stepWord_filter {max : Nat} (hmax : 1 ≤ max) (st : ChunkState)
    (w : List Char) :
    ((stepWord max st w).chunks.flatten ++ (stepWord max st w).cur).filter nonWS =
      (st.chunks.flatten ++ st.cur).filter nonWS ++ w.filter nonWS := by
  by_cases h1 : max < st.cur.length + w.length
  · by_cases ht : trimC st.cur = []
    · have hcur : st.cur.filter nonWS = [] := filter_eq_nil_of_trimC_eq_nil ht
      by_cases hw : max < w.length
      · rw [stepWord_nopush_big h1 ht hw]
        simp [flatten_sliceBy hmax, hcur, List.filter_append]
      · rw [stepWord_nopush_small h1 ht hw]
        simp [hcur, List.filter_append]
    · by_cases hw : max < w.length
      · rw [stepWord_push_big h1 ht hw]
        simp [flatten_sliceBy hmax, trimC_filter, List.filter_append]
      · rw [stepWord_push_small h1 ht hw]
        simp [trimC_filter, List.filter_append]
  · rw [stepWord_fits h1]
    simp [List.filter_append]

theorem foldl_filter {max : Nat} (hmax : 1 ≤ max) :
    ∀ (ws : List (List Char)) (st : ChunkState),
      (((ws.foldl (stepWord max) st).chunks.flatten ++
          (ws.foldl (stepWord max) st).cur).filter nonWS) =
        (st.chunks.flatten ++ st.cur).filter nonWS ++ ws.flatten.filter nonWS := by
  intro ws
  induction ws with
  | nil => intro st; simp
  | cons w ws ih =>
    intro st
    rw [List.foldl_cons, ih, stepWord_filter hmax, List.flatten_cons,
      List.filter_append, List.append_assoc, List.filter_append]

/-- Concatenating the chunks of `splitMessageIntoChunks` preserves exactly the
non-whitespace characters of the input, in order. -/
theorem splitMessageIntoChunks_filter {max : Nat} (hmax : 1 ≤ max)
    (m : List Char) :
    (splitMessageIntoChunks m max).flatten.filter nonWS = m.filter nonWS := by
  unfold splitMessageIntoChunks finChunks
  set st := (jsSplitWs m).foldl (stepWord max) ⟨[], []⟩ with hst
  have hA : (st.chunks.flatten ++ st.cur).filter nonWS = m.filter nonWS := by
    rw [hst, foldl_filter hmax, flatten_jsSplitWs]
    simp
  by_cases ht : trimC st.cur = []
  · rw [if_pos ht]
    have hcur : st.cur.filter nonWS = [] := filter_eq_nil_of_trimC_eq_nil ht
    rw [List.filter_append, hcur, List.append_nil] at hA
    exact hA
  · rw [if_neg ht]
    rw [List.filter_append] at hA
    simp only [List.flatten_append, List.flatten_cons, List.flatten_nil,
      List.append_nil, List.filter_append]
    rw [trimC_filter]
    exact hA

-- ------------------------------------------------------------------------
-- Lemmas: decimal representation and header lengths
-- ------------------------------------------------------------------------

theorem digitChar_isDigit {m : Nat} (h : m < 10) :
    (Nat.digitChar m).isDigit = true := by
  interval_cases m <;> decide

theorem natDecimalGo_ne_nil :
    ∀ fuel n, n < fuel → natDecimalGo fuel n ≠ [] := by
  intro fuel n h
  cases fuel with
  | zero => omega
  | succ fuel =>
    unfold natDecimalGo
    by_cases h10 : n < 10
    · rw [if_pos h10]; simp
    · rw [if_neg h10]; simp

theorem natDecimal_ne_nil (n : Nat) : natDecimal n ≠ [] :=
  natDecimalGo_ne_nil (n + 1) n (Nat.lt_succ_self n)

theorem natDecimalGo_length :
    ∀ fuel n k, n < fuel → n < 10 ^ k → 1 ≤ k →
      (natDecimalGo fuel n).length ≤ k := by
  intro fuel
  induction fuel with
  | zero => intro n k h _ _; omega
  | succ fuel ih =>
    intro n k hf hn hk
    unfold natDecimalGo
    by_cases h10 : n < 10
    · rw [if_pos h10]; simpa using hk
    · rw [if_neg h10]
      rw [List.length_append]
      have hdiv : n / 10 < n := Nat.div_lt_self (by omega) (by omega)
      have hk2 : 2 ≤ k := by
        rcases Nat.lt_or_ge k 2 with hlt | hge
        · exfalso
          have hk1 : k = 1 := by omega
          subst hk1
          rw [pow_one] at hn
          omega
        · exact hge
      have hq : n / 10 < 10 ^ (k - 1) := by
        rw [Nat.div_lt_iff_lt_mul (by omega : 0 < 10)]
        have hpow : 10 ^ (k - 1) * 10 = 10 ^ k := by
          rw [← pow_succ]
          congr 1
          omega
        rw [hpow]
        exact hn
      have hrec := ih (n / 10) (k - 1) (by omega) hq (by omega)
      simp only [List.length_cons, List.length_nil]
      omega

theorem natDecimal_length {n k : Nat} (hn : n < 10 ^ k) (hk : 1 ≤ k) :
    (natDecimal n).length ≤ k :=
  natDecimalGo_length (n + 1) n k (Nat.lt_succ_self n) hn hk

theorem natDecimalGo_digits :
    ∀ fuel n, n < fuel → ∀ c ∈ natDecimalGo fuel n, c.isDigit = true := by
  intro fuel
  induction fuel with
  | zero => intro n h; omega
  | succ fuel ih =>
    intro n hf c hc
    unfold natDecimalGo at hc
    by_cases h10 : n < 10
    · rw [if_pos h10] at hc
      rw [List.mem_singleton] at hc
      subst hc
      exact digitChar_isDigit h10
    · rw [if_neg h10] at hc
      have hdiv : n / 10 < n := Nat.div_lt_self (by omega) (by omega)
      rcases List.mem_append.mp hc with hm | hm
      · exact ih (n / 10) (by omega) c hm
      · rw [List.mem_singleton] at hm
        subst hm
        exact digitChar_isDigit (Nat.mod_lt n (by omega))

theorem natDecimal_digits {n : Nat} : ∀ c ∈ natDecimal n, c.isDigit = true :=
  natDecimalGo_digits (n + 1) n (Nat.lt_succ_self n)

theorem natDecimalGo_eq_one :
    ∀ fuel n, n < fuel → natDecimalGo fuel n = ['1'] → n = 1 := by
  intro fuel
  induction fuel with
  | zero => intro n h _; omega
  | succ fuel _ =>
    intro n hf heq
    unfold natDecimalGo at heq
    by_cases h10 : n < 10
    · rw [if_pos h10] at heq
      have hd : Nat.digitChar n = '1' := by injection heq
      interval_cases n <;> revert hd <;> decide
    · exfalso
      rw [if_neg h10] at heq
      have hdiv : n / 10 < n := Nat.div_lt_self (by omega) (by omega)
      have hne := natDecimalGo_ne_nil fuel (n / 10) (by omega)
      have hlen := congrArg List.length heq
      rw [List.length_append] at hlen
      simp only [List.length_cons, List.length_nil] at hlen
      have : (natDecimalGo fuel (n / 10)).length = 0 := by omega
      exact hne (List.length_eq_zero.mp this)

theorem natDecimal_eq_one {n : Nat} (h : natDecimal n = ['1']) : n = 1 :=
  natDecimalGo_eq_one (n + 1) n (Nat.lt_succ_self n) h

/-- With both part number and total below `10^95`, a header-decorated chunk of
at most `4096 - 200` characters never exceeds the 4096-character ceiling. -/
theorem decorate_length_le {p t : Nat} {c : List Char}
    (hp : p < 10 ^ 95) (ht : t < 10 ^ 95)
    (hc : c.length ≤ TELEGRAM_MESSAGE_MAX_LENGTH - MESSAGE_SAFETY_BUFFER) :
    (decorate p t c).length ≤ TELEGRAM_MESSAGE_MAX_LENGTH := by
  have hp' : (natDecimal p).length ≤ 95 := natDecimal_length hp (by omega)
  have ht' : (natDecimal t).length ≤ 95 := natDecimal_length ht (by omega)
  have hmax : TELEGRAM_MESSAGE_MAX_LENGTH = 4096 := rfl
  have hbuf : MESSAGE_SAFETY_BUFFER = 200 := rfl
  rw [hmax, hbuf] at hc
  rw [hmax]
  unfold decorate partHeader
  simp only [List.length_append, List.length_cons, List.length_nil]
  omega

-- ------------------------------------------------------------------------
-- Lemmas: traces and the chunk loop
-- ------------------------------------------------------------------------

theorem callsOf_append : ∀ a b : List Event, callsOf (a ++ b) = callsOf a ++ callsOf b := by
  intro a
  induction a with
  | nil => intro b; rfl
  | cons e es ih =>
    intro b
    cases e with
    | call t => simp [callsOf, ih]
    | delay => simp [callsOf, ih]

theorem sendLong_empty {oracle : Nat → TransportResult} {m : List Char}
    (h : trimC m = []) :
    sendLongMessageToTelegram oracle m =
      ({ success := false, error := some emptyMessageError }, []) := by
  simp [sendLongMessageToTelegram, h]

theorem sendLong_single {oracle : Nat → TransportResult} {m : List Char}
    (h1 : trimC m ≠ [])
    (h2 : (trimC m).length ≤ TELEGRAM_MESSAGE_MAX_LENGTH - MESSAGE_SAFETY_BUFFER) :
    sendLongMessageToTelegram oracle m =
      (transportToResult (oracle 0), [.call (trimC m)]) := by
  simp [sendLongMessageToTelegram, h1, h2]

theorem sendLong_chunked {oracle : Nat → TransportResult} {m : List Char}
    (h1 : trimC m ≠ [])
    (h2 : ¬ (trimC m).length ≤ TELEGRAM_MESSAGE_MAX_LENGTH - MESSAGE_SAFETY_BUFFER) :
    sendLongMessageToTelegram oracle m =
      sendChunksLoop oracle
        (splitMessageIntoChunks (trimC m)
          (TELEGRAM_MESSAGE_MAX_LENGTH - MESSAGE_SAFETY_BUFFER)).length
        (splitMessageIntoChunks (trimC m)
          (TELEGRAM_MESSAGE_MAX_LENGTH - MESSAGE_SAFETY_BUFFER)) 0 [] := by
  simp [sendLongMessageToTelegram, h1, h2]

/-- The chunk loop under an always-succeeding transport: every chunk is sent
decorated, with a delay after every non-final send. -/
theorem sendChunksLoop_ok {oracle : Nat → TransportResult} {total : Nat}
    (hok : ∀ i, oracle i = .ok) :
    ∀ (cs : List (List Char)) (idx : Nat) (tr : List Event),
      (∀ pos c, cs[pos]? = some c →
        (decorate (idx + pos + 1) total c).length ≤ TELEGRAM_MESSAGE_MAX_LENGTH) →
      sendChunksLoop oracle total cs idx tr =
        ({ success := true, sentParts := some total }, tr ++ decorTrace total idx cs) := by
  intro cs
  induction cs with
  | nil => intro idx tr _; simp [sendChunksLoop, decorTrace]
  | cons c rest ih =>
    intro idx tr hlen
    have h0 : (decorate (idx + 1) total c).length ≤ TELEGRAM_MESSAGE_MAX_LENGTH := by
      have := hlen 0 c (by simp)
      simpa using this
    unfold sendChunksLoop
    rw [if_neg (Nat.not_lt.mpr h0), hok idx]
    rw [ih (idx + 1) _ ?_]
    · by_cases hdel : idx + 1 < total
      · rw [if_pos hdel]
        simp [decorTrace, hdel]
      · rw [if_neg hdel]
        simp [decorTrace, hdel]
    · intro pos c' hc'
      have := hlen (pos + 1) c' (by simpa using hc')
      have harith : idx + (pos + 1) + 1 = idx + 1 + pos + 1 := by omega
      rw [harith] at this
      exact this

/-- The chunk loop when the transport fails on the (j+1)-st remaining chunk:
the failing call is still made, nothing afterwards, and the failure message
names the position, the total and the transport error. -/
theorem sendChunksLoop_err {oracle : Nat → TransportResult} {total : Nat}
    {e : List Char} :
    ∀ (j : Nat) (cs : List (List Char)) (idx : Nat) (tr : List Event),
      j < cs.length →
      (∀ i, i < j → oracle (idx + i) = .ok) →
      oracle (idx + j) = .err e →
      (∀ pos c, pos ≤ j → cs[pos]? = some c →
        (decorate (idx + pos + 1) total c).length ≤ TELEGRAM_MESSAGE_MAX_LENGTH) →
      (sendChunksLoop oracle total cs idx tr).1 =
          { success := false, error := some (failMsg (idx + j + 1) total e) } ∧
        callsOf (sendChunksLoop oracle total cs idx tr).2 =
          callsOf tr ++ decorList total idx (cs.take (j + 1)) := by
  intro j
  induction j with
  | zero =>
    intro cs idx tr hj hok herr hlen
    cases cs with
    | nil => simp at hj
    | cons c rest =>
      have h0 : (decorate (idx + 1) total c).length ≤ TELEGRAM_MESSAGE_MAX_LENGTH := by
        have := hlen 0 c (Nat.le_refl 0) (by simp)
        simpa using this
      rw [Nat.add_zero] at herr
      unfold sendChunksLoop
      rw [if_neg (Nat.not_lt.mpr h0), herr]
      constructor
      · simp
      · rw [callsOf_append]
        simp [callsOf, decorList]
  | succ j ih =>
    intro cs idx tr hj hok herr hlen
    cases cs with
    | nil => simp at hj
    | cons c rest =>
      have h0 : (decorate (idx + 1) total c).length ≤ TELEGRAM_MESSAGE_MAX_LENGTH := by
        have := hlen 0 c (Nat.zero_le _) (by simp)
        simpa using this
      have hok0 : oracle idx = .ok := by
        have := hok 0 (Nat.succ_pos j)
        simpa using this
      unfold sendChunksLoop
      rw [if_neg (Nat.not_lt.mpr h0), hok0]
      have hrec := ih rest (idx + 1)
        (if idx + 1 < total then tr ++ [.call (decorate (idx + 1) total c), .delay]
         else tr ++ [.call (decorate (idx + 1) total c)])
        (by simpa using Nat.lt_of_succ_lt_succ hj)
        (by
          intro i hi
          have := hok (i + 1) (Nat.succ_lt_succ hi)
          have harith : idx + (i + 1) = idx + 1 + i := by omega
          rw [harith] at this
          exact this)
        (by
          have harith : idx + (j + 1) = idx + 1 + j := by omega
          rw [harith] at herr
          exact herr)
        (by
          intro pos c' hpos hc'
          have := hlen (pos + 1) c' (Nat.succ_le_succ hpos) (by simpa using hc')
          have harith : idx + (pos + 1) + 1 = idx + 1 + pos + 1 := by omega
          rw [harith] at this
          exact this)
      refine ⟨?_, ?_⟩
      · rw [hrec.1]
        have harith : idx + 1 + j + 1 = idx + (j + 1) + 1 := by omega
        rw [harith]
      · rw [hrec.2]
        have hcalls : ∀ tr0 : List Event, callsOf
            (if idx + 1 < total then tr0 ++ [.call (decorate (idx + 1) total c), .delay]
             else tr0 ++ [.call (decorate (idx + 1) total c)]) =
            callsOf tr0 ++ [decorate (idx + 1) total c] := by
          intro tr0
          by_cases hdel : idx + 1 < total
          · rw [if_pos hdel, callsOf_append]; rfl
          · rw [if_neg hdel, callsOf_append]; rfl
        rw [hcalls]
        rw [List.take_succ_cons]
        simp [decorList, List.append_assoc]

/-- Every transport call the chunk loop makes beyond the incoming trace is a
header-decorated chunk whose length passed the hard-ceiling check. -/
theorem sendChunksLoop_calls {oracle : Nat → TransportResult} {total : Nat} :
    ∀ (cs : List (List Char)) (idx : Nat) (tr : List Event) (t : List Char),
      Event.call t ∈ (sendChunksLoop oracle total cs idx tr).2 →
      Event.call t ∈ tr ∨
        ∃ pos c, cs[pos]? = some c ∧ t = decorate (idx + pos + 1) total c ∧
          t.length ≤ TELEGRAM_MESSAGE_MAX_LENGTH := by
  intro cs
  induction cs with
  | nil =>
    intro idx tr t h
    left
    simpa [sendChunksLoop] using h
  | cons c rest ih =>
    intro idx tr t h
    unfold sendChunksLoop at h
    by_cases hbig : TELEGRAM_MESSAGE_MAX_LENGTH < (decorate (idx + 1) total c).length
    · rw [if_pos hbig] at h
      left
      exact h
    · rw [if_neg hbig] at h
      cases horacle : oracle idx with
      | err e =>
        rw [horacle] at h
        simp only at h
        rcases List.mem_append.mp h with hm | hm
        · left; exact hm
        · right
          rw [List.mem_singleton] at hm
          injection hm with hm'
          exact ⟨0, c, by simp, by simpa using hm', by
            rw [hm']; exact Nat.le_of_not_lt hbig⟩
      | ok =>
        rw [horacle] at h
        simp only at h
        rcases ih (idx + 1) _ t h with hm | ⟨pos, c', hc', ht', hlen'⟩
        · by_cases hdel : idx + 1 < total
          · rw [if_pos hdel] at hm
            rcases List.mem_append.mp hm with hm' | hm'
            · left; exact hm'
            · right
              rcases List.mem_cons.mp hm' with hm'' | hm''
              · injection hm'' with hm3
                exact ⟨0, c, by simp, by simpa using hm3, by
                  rw [hm3]; exact Nat.le_of_not_lt hbig⟩
              · rw [List.mem_singleton] at hm''
                exact absurd hm'' (by simp)
          · rw [if_neg hdel] at hm
            rcases List.mem_append.mp hm with hm' | hm'
            · left; exact hm'
            · right
              rw [List.mem_singleton] at hm'
              injection hm' with hm3
              exact ⟨0, c, by simp, by simpa using hm3, by
                rw [hm3]; exact Nat.le_of_not_lt hbig⟩
        · right
          refine ⟨pos + 1, c', by simpa using hc', ?_, hlen'⟩
          rw [ht']
          congr 1
          omega

theorem decorTrace_calls {total : Nat} :
    ∀ (cs : List (List Char)) (idx : Nat),
      callsOf (decorTrace total idx cs) = decorList total idx cs := by
  intro cs
  induction cs with
  | nil => intro idx; rfl
  | cons c rest ih =>
    intro idx
    by_cases hdel : idx + 1 < total
    · simp [decorTrace, decorList, hdel, callsOf, callsOf_append, ih]
    · simp [decorTrace, decorList, hdel, callsOf, callsOf_append, ih]

theorem decorList_length {total : Nat} :
    ∀ (cs : List (List Char)) (idx : Nat),
      (decorList total idx cs).length = cs.length := by
  intro cs
  induction cs with
  | nil => intro idx; rfl
  | cons c rest ih => intro idx; simp [decorList, ih]

theorem decorTrace_eq_callsWithDelays {total : Nat} :
    ∀ (cs : List (List Char)) (idx : Nat), idx + cs.length = total →
      decorTrace total idx cs = callsWithDelays (decorList total idx cs) := by
  intro cs
  induction cs with
  | nil => intro idx _; rfl
  | cons c rest ih =>
    intro idx htot
    cases rest with
    | nil =>
      have hdel : ¬ idx + 1 < total := by
        simp only [List.length_cons, List.length_nil] at htot
        omega
      simp [decorTrace, decorList, callsWithDelays, hdel]
    | cons c2 rest2 =>
      have hdel : idx + 1 < total := by
        simp only [List.length_cons] at htot
        omega
      have hrec := ih (idx + 1) (by simp only [List.length_cons] at htot ⊢; omega)
      show Event.call (decorate (idx + 1) total c) ::
          ((if idx + 1 < total then [Event.delay] else []) ++
            decorTrace total (idx + 1) (c2 :: rest2)) = _
      rw [if_pos hdel, hrec]
      simp [decorList, callsWithDelays]

theorem countP_isDelay_callsWithDelays :
    ∀ ts : List (List Char), (callsWithDelays ts).countP isDelay = ts.length - 1 := by
  intro ts
  induction ts with
  | nil => rfl
  | cons t ts ih =>
    cases ts with
    | nil => rfl
    | cons t2 ts2 =>
      show (Event.call t :: Event.delay :: callsWithDelays (t2 :: ts2)).countP isDelay = _
      rw [List.countP_cons, List.countP_cons, ih]
      simp [isDelay]

-- ------------------------------------------------------------------------
-- Lemmas: replicate inputs (used to exhibit concrete chunked deliveries)
-- ------------------------------------------------------------------------

theorem dropWhile_isWS_replicate {c : Char} (h : isWS c = false) (L : Nat) :
    (List.replicate L c).dropWhile isWS = List.replicate L c := by
  cases L with
  | zero => rfl
  | succ L => rw [List.replicate_succ, List.dropWhile_cons, h]; simp

theorem trimC_replicate {c : Char} (h : isWS c = false) (L : Nat) :
    trimC (List.replicate L c) = List.replicate L c := by
  unfold trimC
  rw [dropWhile_isWS_replicate h, List.reverse_replicate,
    dropWhile_isWS_replicate h, List.reverse_replicate]

theorem wsRuns_replicate (c : Char) :
    ∀ L, 1 ≤ L → wsRuns (List.replicate L c) = [List.replicate L c] := by
  intro L
  induction L with
  | zero => intro h; omega
  | succ L ih =>
    intro _
    rw [List.replicate_succ]
    cases L with
    | zero => rfl
    | succ L' =>
      have hrec := ih (by omega)
      rw [List.replicate_succ] at hrec ⊢
      unfold wsRuns
      rw [hrec]
      simp

theorem getLast_cons_replicate (c : Char) :
    ∀ L, (c :: List.replicate L c).getLast (List.cons_ne_nil _ _) = c := by
  intro L
  induction L with
  | zero => rfl
  | succ L ih =>
    rw [List.replicate_succ]
    rw [List.getLast_cons (List.cons_ne_nil _ _)]
    exact ih

theorem jsSplitWs_replicate {c : Char} (h : isWS c = false) {L : Nat}
    (hL : 1 ≤ L) :
    jsSplitWs (List.replicate L c) = [List.replicate L c] := by
  cases L with
  | zero => omega
  | succ L' =>
    have hr : wsRuns (c :: List.replicate L' c) = [c :: List.replicate L' c] := by
      have := wsRuns_replicate c (L' + 1) (by omega)
      rwa [List.replicate_succ] at this
    rw [List.replicate_succ]
    simp only [jsSplitWs]
    rw [getLast_cons_replicate, hr]
    simp [h]

theorem splitMessageIntoChunks_replicate {c : Char} (h : isWS c = false)
    {L max : Nat} (hmax : 1 ≤ max) (hL : max < L) :
    splitMessageIntoChunks (List.replicate L c) max =
      sliceBy max (List.replicate L c) := by
  unfold splitMessageIntoChunks
  rw [jsSplitWs_replicate h (by omega)]
  rw [List.foldl_cons, List.foldl_nil]
  have hstep : stepWord max ⟨[], []⟩ (List.replicate L c) =
      ⟨sliceBy max (List.replicate L c), []⟩ := by
    have h1 : max < (ChunkState.mk [] []).cur.length + (List.replicate L c).length := by
      show max < ([] : List Char).length + (List.replicate L c).length
      simp only [List.length_nil, List.length_replicate]
      omega
    have ht : trimC (ChunkState.mk [] []).cur = [] := rfl
    have hw : max < (List.replicate L c).length := by
      simp only [List.length_replicate]
      omega
    rw [stepWord_nopush_big h1 ht hw]
    simp
  rw [hstep]
  simp [finChunks, trimC]

theorem sliceGo_length {n : Nat} (hn : 1 ≤ n) :
    ∀ fuel (l : List Char), l.length ≤ fuel →
      (sliceGo n fuel l).length = (l.length + n - 1) / n := by
  intro fuel
  induction fuel with
  | zero =>
    intro l h
    have : l = [] := List.length_eq_zero.mp (Nat.le_zero.mp h)
    subst this
    rw [sliceGo_nil]
    simp only [List.length_nil, Nat.zero_add]
    rw [Nat.div_eq_of_lt (by omega)]
  | succ fuel ih =>
    intro l h
    cases l with
    | nil =>
      rw [sliceGo_nil]
      simp only [List.length_nil, Nat.zero_add]
      rw [Nat.div_eq_of_lt (by omega)]
    | cons c cs =>
      show (_ :: sliceGo n fuel ((c :: cs).drop n)).length = _
      rw [List.length_cons, ih]
      · rw [List.length_drop]
        set m := (c :: cs).length with hm
        have hm1 : 1 ≤ m := by rw [hm]; simp
        rcases Nat.lt_or_ge m (n + 1) with hle | hgt
        · have hz : m - n = 0 := by omega
          rw [hz]
          simp only [Nat.zero_add]
          rw [Nat.div_eq_of_lt (by omega)]
          have hone : (m + n - 1) / n = 1 := by
            apply Nat.div_eq_of_lt_le
            · omega
            · omega
          omega
        · have e1 : m - n + n - 1 = m - 1 := by omega
          have e2 : m + n - 1 = m - 1 + n := by omega
          rw [e1, e2, Nat.add_div_right _ (by omega)]
      · simp only [List.length_drop, List.length_cons] at h ⊢
        omega

theorem sliceBy_length {n : Nat} (hn : 1 ≤ n) (l : List Char) :
    (sliceBy n l).length = (l.length + n - 1) / n :=
  sliceGo_length hn l.length l (Nat.le_refl _)

-- ------------------------------------------------------------------------
-- Lemmas: structure of the failure message
-- ------------------------------------------------------------------------

theorem failMsg_embeds_part (p t : Nat) (e : List Char) :
    ( "part ".data ++ natDecimal p ++ "/".data ++ natDecimal t) <:+:
      failMsg p t e := by
  refine ⟨"Failed to send ".data, ": ".data ++ e, ?_⟩
  simp [failMsg]

theorem failMsg_embeds_err (p t : Nat) (e : List Char) : e <:+: failMsg p t e := by
  refine ⟨"Failed to send part ".data ++ natDecimal p ++ "/".data ++
    natDecimal t ++ ": ".data, [], ?_⟩
  simp [failMsg]

-- ------------------------------------------------------------------------
-- Shared helpers for the pipeline claims
-- ------------------------------------------------------------------------

theorem messageChunks_le_chunkSize (m : List Char) :
    ∀ c ∈ messageChunks m, c ≠ [] ∧
      c.length ≤ TELEGRAM_MESSAGE_MAX_LENGTH - MESSAGE_SAFETY_BUFFER :=
  splitMessageIntoChunks_bounds (by decide) _

theorem messageChunks_decorate_le {m : List Char}
    (hn : (messageChunks m).length < 10 ^ 95) :
    ∀ pos c, (messageChunks m)[pos]? = some c →
      (decorate (0 + pos + 1) (messageChunks m).length c).length ≤
        TELEGRAM_MESSAGE_MAX_LENGTH := by
  intro pos c hc
  have hmem : c ∈ messageChunks m := List.getElem?_mem hc
  have hpos : pos < (messageChunks m).length := by
    rcases List.getElem?_eq_some.mp hc with ⟨hlt, _⟩
    exact hlt
  apply decorate_length_le
  · omega
  · exact hn
  · exact (messageChunks_le_chunkSize m c hmem).2

-- ------------------------------------------------------------------------
-- Claims
-- ------------------------------------------------------------------------

/-- C1, counterexample: with `maxChunkSize = 2 > 0`, the Chunker applied to
`"a   b"` emits the chunk `"  "`, which is empty after trimming — refuting
"every chunk emitted ..., after trimming, is non-empty". -/
theorem chunker_trimmed_chunk_can_be_empty :
    [' ', ' '] ∈ splitMessageIntoChunks ['a', ' ', ' ', ' ', 'b'] 2 ∧
      trimC [' ', ' '] = [] ∧ 0 < 2 := by decide

/-- C1 (amended): for every input and every `maxChunkSize > 0`, every chunk
emitted by `splitMessageIntoChunks` is non-empty (though a chunk produced by
the character-split fallback on an over-long whitespace run may be
whitespace-only, hence empty after trimming) and has length at most
`maxChunkSize`, and the chunks appear in original text order: concatenating
them preserves exactly the non-whitespace characters of the input, in
order. -/
theorem chunker_chunks_bounded_ordered (m : List Char) (max : Nat)
    (hmax : 0 < max) :
    (∀ c ∈ splitMessageIntoChunks m max, c ≠ [] ∧ c.length ≤ max) ∧
      (splitMessageIntoChunks m max).flatten.filter nonWS = m.filter nonWS :=
  ⟨splitMessageIntoChunks_bounds hmax m, splitMessageIntoChunks_filter hmax m⟩

/-- C1, witness. -/
theorem chunker_chunks_bounded_ordered_witness :
    0 < 2 ∧
      ((∀ c ∈ splitMessageIntoChunks ['a', ' ', ' ', ' ', 'b'] 2,
          c ≠ [] ∧ c.length ≤ 2) ∧
        (splitMessageIntoChunks ['a', ' ', ' ', ' ', 'b'] 2).flatten.filter nonWS =
          ['a', ' ', ' ', ' ', 'b'].filter nonWS) :=
  ⟨by decide, chunker_chunks_bounded_ordered ['a', ' ', ' ', ' ', 'b'] 2 (by decide)⟩

/-- C2, counterexample: for the short message `"hi"` with a succeeding
transport, the single-send path returns the transport result unmodified:
success with `sentParts` absent, not part count 1. -/
theorem single_send_no_part_count :
    (sendLongMessageToTelegram okOracle ['h', 'i']).1.success = true ∧
      (sendLongMessageToTelegram okOracle ['h', 'i']).1.sentParts ≠ some 1 := by
  decide

/-- C2 (amended): for every message whose trimmed length is at most the
effective maximum (4096 − 200), `sendLongMessageToTelegram` makes exactly one
transport call whose text is exactly the trimmed message (no `Part x/y:`
header is added) and returns the transport's result unmodified — in
particular, on transport success the result is bare success with no part
count. -/
theorem single_send_unmodified (oracle : Nat → TransportResult)
    (m : List Char) (h1 : trimC m ≠ [])
    (h2 : (trimC m).length ≤ TELEGRAM_MESSAGE_MAX_LENGTH - MESSAGE_SAFETY_BUFFER) :
    (sendLongMessageToTelegram oracle m).2 = [Event.call (trimC m)] ∧
      (sendLongMessageToTelegram oracle m).1 = transportToResult (oracle 0) := by
  rw [sendLong_single h1 h2]
  exact ⟨rfl, rfl⟩

/-- C2, witness. -/
theorem single_send_unmodified_witness :
    (trimC ['h', 'i'] ≠ [] ∧
      (trimC ['h', 'i']).length ≤
        TELEGRAM_MESSAGE_MAX_LENGTH - MESSAGE_SAFETY_BUFFER) ∧
    ((sendLongMessageToTelegram okOracle ['h', 'i']).2 =
        [Event.call (trimC ['h', 'i'])] ∧
      (sendLongMessageToTelegram okOracle ['h', 'i']).1 =
        transportToResult (okOracle 0)) :=
  ⟨⟨by decide, by decide⟩,
    single_send_unmodified okOracle ['h', 'i'] (by decide) (by decide)⟩

/-- C4: for every message whose trimmed form is empty,
`sendLongMessageToTelegram` fails with the empty-message error and makes zero
transport calls. -/
theorem empty_message_rejected (oracle : Nat → TransportResult)
    (m : List Char) (h : trimC m = []) :
    (sendLongMessageToTelegram oracle m).1 =
        { success := false, error := some emptyMessageError } ∧
      (sendLongMessageToTelegram oracle m).2 = [] := by
  rw [sendLong_empty h]
  exact ⟨rfl, rfl⟩

/-- C4, witness. -/
theorem empty_message_rejected_witness :
    trimC [' '] = [] ∧
    ((sendLongMessageToTelegram okOracle [' ']).1 =
        { success := false, error := some emptyMessageError } ∧
      (sendLongMessageToTelegram okOracle [' ']).2 = []) :=
  ⟨by decide, empty_message_rejected okOracle [' '] (by decide)⟩

/-- C5: for all non-empty text and positive `maxChunkSize`, concatenating the
chunks of the Chunker reconstructs the text up to whitespace: no
non-whitespace character is dropped or duplicated and their relative order is
preserved. -/
theorem chunker_preserves_nonws (t : List Char) (max : Nat)
    (ht : t ≠ []) (hmax : 0 < max) :
    (splitMessageIntoChunks t max).flatten.filter nonWS = t.filter nonWS :=
  splitMessageIntoChunks_filter hmax t

/-- C5, witness. -/
theorem chunker_preserves_nonws_witness :
    (['a', ' ', 'b'] ≠ ([] : List Char) ∧ 0 < 2) ∧
      (splitMessageIntoChunks ['a', ' ', 'b'] 2).flatten.filter nonWS =
        ['a', ' ', 'b'].filter nonWS :=
  ⟨⟨by decide, by decide⟩, chunker_preserves_nonws ['a', ' ', 'b'] 2 (by decide) (by decide)⟩

/-- C6: in the chunk loop, when the header-decorated transmitted form of the
chunk at hand exceeds the 4096-character hard ceiling, the delivery aborts at
once with a failure naming that chunk's position, and the transport is not
invoked for that chunk nor any later one (the trace gains no events). -/
theorem oversized_decorated_chunk_aborts (oracle : Nat → TransportResult)
    (total idx : Nat) (tr : List Event) (c : List Char) (rest : List (List Char))
    (h : TELEGRAM_MESSAGE_MAX_LENGTH < (decorate (idx + 1) total c).length) :
    sendChunksLoop oracle total (c :: rest) idx tr =
      ({ success := false, error := some (chunkTooLargeMsg (idx + 1)) }, tr) := by
  unfold sendChunksLoop
  rw [if_pos h]

/-- C6, witness. -/
theorem oversized_decorated_chunk_aborts_witness :
    TELEGRAM_MESSAGE_MAX_LENGTH <
        (decorate (0 + 1) 1 (List.replicate 5000 'a')).length ∧
      sendChunksLoop okOracle 1 [List.replicate 5000 'a'] 0 [] =
        ({ success := false, error := some (chunkTooLargeMsg (0 + 1)) }, []) := by
  have hlen : (decorate (0 + 1) 1 (List.replicate 5000 'a')).length = 5011 := by
    unfold decorate
    rw [List.length_append, List.length_append, List.length_replicate]
    have hph : (partHeader (0 + 1) 1).length = 9 := rfl
    have hnl : (( "\n\n").data).length = 2 := rfl
    rw [hph, hnl]
  have hbig : TELEGRAM_MESSAGE_MAX_LENGTH <
      (decorate (0 + 1) 1 (List.replicate 5000 'a')).length := by
    rw [hlen]; decide
  exact ⟨hbig, oversized_decorated_chunk_aborts okOracle 1 0 [] _ [] hbig⟩

/-- C7: every text `sendLongMessageToTelegram` actually passes to the
transport — the single trimmed message or a header-decorated chunk — has
length at most `TELEGRAM_MESSAGE_MAX_LENGTH` (4096). -/
theorem transport_texts_within_limit (oracle : Nat → TransportResult)
    (m t : List Char)
    (h : Event.call t ∈ (sendLongMessageToTelegram oracle m).2) :
    t.length ≤ TELEGRAM_MESSAGE_MAX_LENGTH := by
  by_cases h1 : trimC m = []
  · rw [sendLong_empty h1] at h
    simp at h
  · by_cases h2 : (trimC m).length ≤ TELEGRAM_MESSAGE_MAX_LENGTH - MESSAGE_SAFETY_BUFFER
    · rw [sendLong_single h1 h2] at h
      rw [List.mem_singleton] at h
      injection h with ht
      rw [ht]
      exact Nat.le_trans h2 (Nat.sub_le _ _)
    · rw [sendLong_chunked h1 h2] at h
      rcases sendChunksLoop_calls _ 0 [] t h with hm | ⟨pos, c, _, _, hlen⟩
      · simp at hm
      · exact hlen

/-- C7, witness. -/
theorem transport_texts_within_limit_witness :
    Event.call ['o', 'k'] ∈ (sendLongMessageToTelegram okOracle ['o', 'k']).2 ∧
      (['o', 'k'] : List Char).length ≤ TELEGRAM_MESSAGE_MAX_LENGTH :=
  ⟨by decide,
    transport_texts_within_limit okOracle ['o', 'k'] ['o', 'k'] (by decide)⟩

-- ------------------------------------------------------------------------
-- Concrete chunked inputs for the remaining pipeline claims
-- ------------------------------------------------------------------------

theorem trimC_replicate_a (L : Nat) :
    trimC (List.replicate L 'a') = List.replicate L 'a' :=
  trimC_replicate (by decide) L

theorem trimC_replicate_a_ne_nil {L : Nat} (h : 1 ≤ L) :
    trimC (List.replicate L 'a') ≠ [] := by
  rw [trimC_replicate_a]
  intro hnil
  have hlen := congrArg List.length hnil
  simp only [List.length_replicate, List.length_nil] at hlen
  omega

theorem trimC_replicate_a_long {L : Nat}
    (h : TELEGRAM_MESSAGE_MAX_LENGTH - MESSAGE_SAFETY_BUFFER < L) :
    ¬ (trimC (List.replicate L 'a')).length ≤
      TELEGRAM_MESSAGE_MAX_LENGTH - MESSAGE_SAFETY_BUFFER := by
  rw [trimC_replicate_a]
  simp only [List.length_replicate]
  omega

theorem messageChunks_replicate_a {L : Nat} (h : 3896 < L) :
    messageChunks (List.replicate L 'a') = sliceBy 3896 (List.replicate L 'a') := by
  show splitMessageIntoChunks (trimC (List.replicate L 'a'))
    (TELEGRAM_MESSAGE_MAX_LENGTH - MESSAGE_SAFETY_BUFFER) = _
  rw [trimC_replicate_a]
  show splitMessageIntoChunks (List.replicate L 'a') 3896 = _
  exact splitMessageIntoChunks_replicate (by decide) (by decide) h

-- ------------------------------------------------------------------------
-- Claims C8, C9, C3
-- ------------------------------------------------------------------------

/-- C8: in the chunked path, if every transport call succeeds,
`sendLongMessageToTelegram` returns success with `sentParts` equal to the
number of chunks produced by the Chunker, having made exactly that many
transport calls, in chunk order, each one the header-decorated chunk.  (The
bound `< 10^95` on the chunk count is vacuous for any JavaScript array and
keeps the part headers within the 200-character safety buffer.) -/
theorem chunked_all_ok_success (oracle : Nat → TransportResult) (m : List Char)
    (hok : ∀ i, oracle i = .ok)
    (h1 : trimC m ≠ [])
    (h2 : ¬ (trimC m).length ≤ TELEGRAM_MESSAGE_MAX_LENGTH - MESSAGE_SAFETY_BUFFER)
    (hn : (messageChunks m).length < 10 ^ 95) :
    (sendLongMessageToTelegram oracle m).1 =
        { success := true, error := none,
          sentParts := some (messageChunks m).length } ∧
      callsOf (sendLongMessageToTelegram oracle m).2 =
        decorList (messageChunks m).length 0 (messageChunks m) ∧
      (callsOf (sendLongMessageToTelegram oracle m).2).length =
        (messageChunks m).length := by
  have hpipe : sendLongMessageToTelegram oracle m =
      sendChunksLoop oracle (messageChunks m).length (messageChunks m) 0 [] :=
    sendLong_chunked h1 h2
  rw [hpipe,
    sendChunksLoop_ok hok (messageChunks m) 0 [] (messageChunks_decorate_le hn)]
  refine ⟨rfl, ?_, ?_⟩
  · show callsOf ([] ++ decorTrace (messageChunks m).length 0 (messageChunks m)) = _
    rw [List.nil_append, decorTrace_calls]
  · show (callsOf ([] ++ decorTrace (messageChunks m).length 0 (messageChunks m))).length = _
    rw [List.nil_append, decorTrace_calls, decorList_length]

/-- C8, witness: a 3897-character message splits into 2 chunks, both sent. -/
theorem chunked_all_ok_success_witness :
    ((∀ i, okOracle i = TransportResult.ok) ∧
      trimC (List.replicate 3897 'a') ≠ [] ∧
      ¬ (trimC (List.replicate 3897 'a')).length ≤
        TELEGRAM_MESSAGE_MAX_LENGTH - MESSAGE_SAFETY_BUFFER ∧
      (messageChunks (List.replicate 3897 'a')).length < 10 ^ 95) ∧
    ((sendLongMessageToTelegram okOracle (List.replicate 3897 'a')).1 =
        { success := true, error := none,
          sentParts := some (messageChunks (List.replicate 3897 'a')).length } ∧
      callsOf (sendLongMessageToTelegram okOracle (List.replicate 3897 'a')).2 =
        decorList (messageChunks (List.replicate 3897 'a')).length 0
          (messageChunks (List.replicate 3897 'a')) ∧
      (callsOf
          (sendLongMessageToTelegram okOracle (List.replicate 3897 'a')).2).length =
        (messageChunks (List.replicate 3897 'a')).length) := by
  have hlen : (messageChunks (List.replicate 3897 'a')).length = 2 := by
    rw [messageChunks_replicate_a (by decide), sliceBy_length (by decide),
      List.length_replicate]
  have hn : (messageChunks (List.replicate 3897 'a')).length < 10 ^ 95 := by
    rw [hlen]
    norm_num
  exact ⟨⟨fun i => rfl, trimC_replicate_a_ne_nil (by decide),
      trimC_replicate_a_long (by decide), hn⟩,
    chunked_all_ok_success okOracle _ (fun i => rfl)
      (trimC_replicate_a_ne_nil (by decide))
      (trimC_replicate_a_long (by decide)) hn⟩

/-- C9: in a successful chunked delivery of n chunks the inter-chunk delay
occurs exactly n − 1 times: the trace is the decorated chunks interleaved
with single delays — a delay between every pair of consecutive sends and none
after the final send. -/
theorem delays_between_sends (oracle : Nat → TransportResult) (m : List Char)
    (hok : ∀ i, oracle i = .ok)
    (h1 : trimC m ≠ [])
    (h2 : ¬ (trimC m).length ≤ TELEGRAM_MESSAGE_MAX_LENGTH - MESSAGE_SAFETY_BUFFER)
    (hn : (messageChunks m).length < 10 ^ 95) :
    (sendLongMessageToTelegram oracle m).2 =
        callsWithDelays
          (decorList (messageChunks m).length 0 (messageChunks m)) ∧
      ((sendLongMessageToTelegram oracle m).2).countP isDelay =
        (messageChunks m).length - 1 := by
  have hpipe : sendLongMessageToTelegram oracle m =
      sendChunksLoop oracle (messageChunks m).length (messageChunks m) 0 [] :=
    sendLong_chunked h1 h2
  rw [hpipe,
    sendChunksLoop_ok hok (messageChunks m) 0 [] (messageChunks_decorate_le hn)]
  have heq := decorTrace_eq_callsWithDelays (messageChunks m) 0 (Nat.zero_add _)
  constructor
  · show [] ++ decorTrace (messageChunks m).length 0 (messageChunks m) = _
    rw [List.nil_append, heq]
  · show ([] ++ decorTrace (messageChunks m).length 0 (messageChunks m)).countP
      isDelay = _
    rw [List.nil_append, heq, countP_isDelay_callsWithDelays, decorList_length]

/-- C9, witness: a 7793-character message yields 3 chunks and 2 delays. -/
theorem delays_between_sends_witness :
    ((∀ i, okOracle i = TransportResult.ok) ∧
      trimC (List.replicate 7793 'a') ≠ [] ∧
      ¬ (trimC (List.replicate 7793 'a')).length ≤
        TELEGRAM_MESSAGE_MAX_LENGTH - MESSAGE_SAFETY_BUFFER ∧
      (messageChunks (List.replicate 7793 'a')).length < 10 ^ 95) ∧
    ((sendLongMessageToTelegram okOracle (List.replicate 7793 'a')).2 =
        callsWithDelays
          (decorList (messageChunks (List.replicate 7793 'a')).length 0
            (messageChunks (List.replicate 7793 'a'))) ∧
      ((sendLongMessageToTelegram okOracle (List.replicate 7793 'a')).2).countP
          isDelay =
        (messageChunks (List.replicate 7793 'a')).length - 1) := by
  have hlen : (messageChunks (List.replicate 7793 'a')).length = 3 := by
    rw [messageChunks_replicate_a (by decide), sliceBy_length (by decide),
      List.length_replicate]
  have hn : (messageChunks (List.replicate 7793 'a')).length < 10 ^ 95 := by
    rw [hlen]
    norm_num
  exact ⟨⟨fun i => rfl, trimC_replicate_a_ne_nil (by decide),
      trimC_replicate_a_long (by decide), hn⟩,
    delays_between_sends okOracle _ (fun i => rfl)
      (trimC_replicate_a_ne_nil (by decide))
      (trimC_replicate_a_long (by decide)) hn⟩

/-- C3: in the chunked path, if the transport fails on the (j+1)-st of n
chunks (succeeding on all earlier ones), the pipeline makes exactly j+1
transport calls — the failing call included, none after it — and returns a
failure whose message is `Failed to send part (j+1)/n: <error>`: it embeds
the failing position and total as `part (j+1)/n` and the transport's error
text. -/
theorem chunked_failure_aborts (oracle : Nat → TransportResult)
    (m e : List Char) (j : Nat)
    (h1 : trimC m ≠ [])
    (h2 : ¬ (trimC m).length ≤ TELEGRAM_MESSAGE_MAX_LENGTH - MESSAGE_SAFETY_BUFFER)
    (hn : (messageChunks m).length < 10 ^ 95)
    (hj : j < (messageChunks m).length)
    (hok : ∀ i, i < j → oracle i = .ok)
    (herr : oracle j = .err e) :
    (sendLongMessageToTelegram oracle m).1 =
        { success := false,
          error := some (failMsg (j + 1) (messageChunks m).length e) } ∧
      callsOf (sendLongMessageToTelegram oracle m).2 =
        decorList (messageChunks m).length 0 ((messageChunks m).take (j + 1)) ∧
      (callsOf (sendLongMessageToTelegram oracle m).2).length = j + 1 ∧
      ( "part ".data ++ natDecimal (j + 1) ++ "/".data ++
          natDecimal (messageChunks m).length) <:+:
        failMsg (j + 1) (messageChunks m).length e ∧
      e <:+: failMsg (j + 1) (messageChunks m).length e := by
  have hpipe : sendLongMessageToTelegram oracle m =
      sendChunksLoop oracle (messageChunks m).length (messageChunks m) 0 [] :=
    sendLong_chunked h1 h2
  have hloop := @sendChunksLoop_err oracle (messageChunks m).length e
    j (messageChunks m) 0 []
    hj
    (by intro i hi; rw [Nat.zero_add]; exact hok i hi)
    (by rw [Nat.zero_add]; exact herr)
    (fun pos c _ hc => messageChunks_decorate_le hn pos c hc)
  rw [hpipe]
  refine ⟨?_, ?_, ?_, failMsg_embeds_part _ _ _, failMsg_embeds_err _ _ _⟩
  · rw [hloop.1, Nat.zero_add]
  · rw [hloop.2]
    rfl
  · rw [hloop.2]
    have hz : callsOf ([] : List Event) = [] := rfl
    rw [hz, List.nil_append, decorList_length, List.length_take]
    omega

/-- C3, witness: 7793 characters make 3 chunks; the transport succeeds on the
first call and fails on the second, so exactly 2 calls occur and the failure
references part 2/3 and the error text. -/
theorem chunked_failure_aborts_witness :
    (trimC (List.replicate 7793 'a') ≠ [] ∧
      ¬ (trimC (List.replicate 7793 'a')).length ≤
        TELEGRAM_MESSAGE_MAX_LENGTH - MESSAGE_SAFETY_BUFFER ∧
      (messageChunks (List.replicate 7793 'a')).length < 10 ^ 95 ∧
      1 < (messageChunks (List.replicate 7793 'a')).length ∧
      (∀ i, i < 1 → failSecondOracle i = .ok) ∧
      failSecondOracle 1 = .err ( "boom".data)) ∧
    ((sendLongMessageToTelegram failSecondOracle (List.replicate 7793 'a')).1 =
        { success := false,
          error := some (failMsg 2
            (messageChunks (List.replicate 7793 'a')).length ( "boom".data)) } ∧
      callsOf
          (sendLongMessageToTelegram failSecondOracle
            (List.replicate 7793 'a')).2 =
        decorList (messageChunks (List.replicate 7793 'a')).length 0
          ((messageChunks (List.replicate 7793 'a')).take 2) ∧
      (callsOf
          (sendLongMessageToTelegram failSecondOracle
            (List.replicate 7793 'a')).2).length = 2 ∧
      ( "part ".data ++ natDecimal 2 ++ "/".data ++
          natDecimal (messageChunks (List.replicate 7793 'a')).length) <:+:
        failMsg 2 (messageChunks (List.replicate 7793 'a')).length ( "boom".data) ∧
      ( "boom".data) <:+:
        failMsg 2 (messageChunks (List.replicate 7793 'a')).length
          ( "boom".data)) := by
  have hlen : (messageChunks (List.replicate 7793 'a')).length = 3 := by
    rw [messageChunks_replicate_a (by decide), sliceBy_length (by decide),
      List.length_replicate]
  have hn : (messageChunks (List.replicate 7793 'a')).length < 10 ^ 95 := by
    rw [hlen]
    norm_num
  have hj : 1 < (messageChunks (List.replicate 7793 'a')).length := by
    rw [hlen]
    decide
  have hok : ∀ i, i < 1 → failSecondOracle i = .ok := by
    intro i hi
    have hi0 : i = 0 := by omega
    subst hi0
    rfl
  exact ⟨⟨trimC_replicate_a_ne_nil (by decide),
      trimC_replicate_a_long (by decide), hn, hj, hok, rfl⟩,
    chunked_failure_aborts failSecondOracle _ ( "boom".data) 1
      (trimC_replicate_a_ne_nil (by decide))
      (trimC_replicate_a_long (by decide)) hn hj hok rfl⟩

-- ------------------------------------------------------------------------
-- Lemmas towards C10: a trimmed over-long message yields at least 2 chunks
-- ------------------------------------------------------------------------

theorem dropWhile_isWS_head {l : List Char} {c : Char} {cs : List Char}
    (h : l.dropWhile isWS = c :: cs) : isWS c = false := by
  induction l with
  | nil => simp at h
  | cons d ds ih =>
    rw [List.dropWhile_cons] at h
    by_cases hd : isWS d
    · rw [if_pos hd] at h
      exact ih h
    · rw [if_neg hd] at h
      injection h with h1 _
      rw [← h1]
      rw [Bool.not_eq_true] at hd
      exact hd

/-- The first character of a trimmed string is not whitespace. -/
theorem trimC_head {m : List Char} {c : Char} {cs : List Char}
    (h : trimC m = c :: cs) : isWS c = false := by
  have hsuf : (m.dropWhile isWS).reverse.dropWhile isWS <:+
      (m.dropWhile isWS).reverse := List.dropWhile_suffix _
  have hpre : trimC m <+: m.dropWhile isWS := by
    unfold trimC
    rw [← List.reverse_suffix, List.reverse_reverse]
    exact hsuf
  obtain ⟨t, ht⟩ := hpre
  rw [h, List.cons_append] at ht
  exact dropWhile_isWS_head ht.symm

/-- The last character of a trimmed string is not whitespace. -/
theorem trimC_getLast {m : List Char} {c : Char}
    (h : (trimC m).getLast? = some c) : isWS c = false := by
  unfold trimC at h
  rw [List.getLast?_reverse] at h
  obtain ⟨ys, hys⟩ := List.head?_eq_some_iff.mp h
  exact dropWhile_isWS_head hys

theorem finChunks_length_ge (st : ChunkState) :
    st.chunks.length ≤ (finChunks st).length := by
  unfold finChunks
  split
  · exact Nat.le_refl _
  · simp

theorem finChunks_length_push {st : ChunkState} (h : trimC st.cur ≠ []) :
    (finChunks st).length = st.chunks.length + 1 := by
  unfold finChunks
  rw [if_neg h]
  simp

theorem foldl_chunks_ne_nil {max : Nat} (ws : List (List Char))
    {st : ChunkState} (h : st.chunks ≠ []) :
    (ws.foldl (stepWord max) st).chunks ≠ [] := by
  obtain ⟨ex, hex⟩ := @foldl_chunks_pre max ws st
  rw [hex]
  exact List.append_ne_nil_of_left_ne_nil h ex

/-- While no chunk has been emitted, the running buffer is exactly the
concatenation of the tokens consumed so far (the first of which contains a
non-whitespace character). -/
theorem foldInv {max : Nat} (hmax : 1 ≤ max) :
    ∀ (ws : List (List Char)) (st : ChunkState) (p : List Char),
      st.cur.length ≤ max →
      (st.chunks = [] → st.cur = p) →
      p.filter nonWS ≠ [] →
      ((ws.foldl (stepWord max) st).chunks = [] →
        (ws.foldl (stepWord max) st).cur = p ++ ws.flatten) := by
  intro ws
  induction ws with
  | nil =>
    intro st p _ hc _ hfin
    rw [List.flatten_nil, List.append_nil]
    exact hc hfin
  | cons w rest ih =>
    intro st p hcur hc hp
    rw [List.foldl_cons]
    by_cases hov : max < st.cur.length + w.length
    · -- an overflow step: either a chunk is pushed (so the conclusion is
      -- vacuous) or the buffer was whitespace-only, contradicting hp
      by_cases htc : trimC st.cur = []
      · by_cases hch : st.chunks = []
        · exfalso
          have hcp : st.cur = p := hc hch
          have : p.filter nonWS = [] := by
            rw [← hcp]
            exact filter_eq_nil_of_trimC_eq_nil htc
          exact hp this
        · intro hfin
          exfalso
          obtain ⟨ex, hex⟩ := @stepWord_chunks_pre max st w
          have hne : (stepWord max st w).chunks ≠ [] := by
            rw [hex]
            exact List.append_ne_nil_of_left_ne_nil hch ex
          exact foldl_chunks_ne_nil rest hne hfin
      · intro hfin
        exfalso
        have hne : (stepWord max st w).chunks ≠ [] := by
          by_cases hw : max < w.length
          · rw [stepWord_push_big hov htc hw]
            apply List.append_ne_nil_of_left_ne_nil
            exact List.append_ne_nil_of_right_ne_nil _ (by simp)
          · rw [stepWord_push_small hov htc hw]
            exact List.append_ne_nil_of_right_ne_nil _ (by simp)
        exact foldl_chunks_ne_nil rest hne hfin
    · -- the token is appended to the buffer
      rw [stepWord_fits hov]
      have hres := ih ⟨st.chunks, st.cur ++ w⟩ (p ++ w)
        (by
          show (st.cur ++ w).length ≤ max
          rw [List.length_append]
          omega)
        (by
          intro hch
          show st.cur ++ w = p ++ w
          rw [hc hch])
        (by
          rw [List.filter_append]
          exact List.append_ne_nil_of_left_ne_nil hp _)
      intro hfin
      rw [hres hfin, List.flatten_cons, List.append_assoc]

/-- A trimmed message longer than `max` is never packed into fewer than two
chunks: its first token either overflows (hard-split into ≥ 2 slices) or
seeds the buffer, which must overflow before the wholly non-whitespace last
token is flushed. -/
theorem splitChunks_ge_two {max : Nat} (hmax : 1 ≤ max) (m : List Char)
    (hne : trimC m ≠ []) (hlong : max < (trimC m).length) :
    2 ≤ (splitMessageIntoChunks (trimC m) max).length := by
  obtain ⟨c0, cs0, hm'⟩ : ∃ c0 cs0, trimC m = c0 :: cs0 := by
    cases hm : trimC m with
    | nil => exact absurd hm hne
    | cons c cs => exact ⟨c, cs, rfl⟩
  have hc0 : isWS c0 = false := trimC_head hm'
  have hlast : isWS ((c0 :: cs0).getLast (List.cons_ne_nil c0 cs0)) = false := by
    apply @trimC_getLast m _
    rw [hm']
    exact List.getLast?_eq_getLast _ _
  have hwords : jsSplitWs (trimC m) = wsRuns (c0 :: cs0) := by
    rw [hm']
    exact jsSplitWs_eq_wsRuns hc0 hlast
  have hflat : (wsRuns (c0 :: cs0)).flatten = c0 :: cs0 := flatten_wsRuns _
  rcases List.eq_nil_or_concat (wsRuns (c0 :: cs0)) with hnil | ⟨L', wL, hcat⟩
  · rw [hnil] at hflat
    simp at hflat
  rw [List.concat_eq_append] at hcat
  have hwLmem : wL ∈ wsRuns (c0 :: cs0) := by
    rw [hcat]
    exact List.mem_append_right _ (by simp)
  have hwLne : wL ≠ [] := fun hh => nil_not_mem_wsRuns (c0 :: cs0) (hh ▸ hwLmem)
  have hflat2 : L'.flatten ++ wL = c0 :: cs0 := by
    rw [← hflat, hcat]
    simp
  have hlast2 : (c0 :: cs0).getLast? = some (wL.getLast hwLne) := by
    rw [← hflat2, List.getLast?_append, List.getLast?_eq_getLast wL hwLne]
    rfl
  have hyws : isWS (wL.getLast hwLne) = false := by
    apply @trimC_getLast m _
    rw [hm']
    exact hlast2
  have hwAll : ∀ z ∈ wL, isWS z = false := by
    intro z hz
    have hzz := wsRuns_homog (c0 :: cs0) wL hwLmem z hz
      (wL.getLast hwLne) (List.getLast_mem hwLne)
    rw [hzz, hyws]
  have hwFilter : wL.filter nonWS = wL := by
    rw [List.filter_eq_self]
    intro a ha
    simp [nonWS, hwAll a ha]
  have htrimWL : trimC wL ≠ [] :=
    trimC_ne_nil_of_filter (by rw [hwFilter]; exact hwLne)
  unfold splitMessageIntoChunks
  rw [hwords, hcat]
  cases L' with
  | nil =>
    simp only [List.flatten_nil, List.nil_append] at hflat2
    have hlenL : max < wL.length := by
      rw [hflat2]
      rw [hm'] at hlong
      exact hlong
    simp only [List.nil_append, List.foldl_cons, List.foldl_nil]
    have hcond : max < (ChunkState.mk [] []).cur.length + wL.length := by
      show max < ([] : List Char).length + wL.length
      simp only [List.length_nil]
      omega
    have hstep := stepWord_nopush_big hcond rfl hlenL
    rw [hstep]
    have hge : 2 ≤ (ChunkState.mk
        ((ChunkState.mk [] []).chunks ++ sliceBy max wL)
        (ChunkState.mk [] []).cur).chunks.length := by
      show 2 ≤ ([] ++ sliceBy max wL).length
      rw [List.nil_append]
      exact sliceBy_length_ge_two hmax hlenL
    have hfin := finChunks_length_ge (ChunkState.mk
      ((ChunkState.mk [] []).chunks ++ sliceBy max wL) (ChunkState.mk [] []).cur)
    omega
  | cons w0 mid =>
    obtain ⟨t0, hw0⟩ : ∃ t0, w0 = c0 :: t0 := by
      obtain ⟨t, rs, hfr⟩ := wsRuns_first c0 cs0
      rw [hcat, List.cons_append] at hfr
      injection hfr with h1 _
      exact ⟨t, h1⟩
    have hfw0 : w0.filter nonWS ≠ [] := by
      rw [hw0, List.filter_cons_of_pos (by simp [nonWS, hc0])]
      simp
    have hflat3 : (w0 ++ mid.flatten) ++ wL = c0 :: cs0 := by
      rw [← hflat2, List.flatten_cons, List.append_assoc]
    rw [List.cons_append, List.foldl_cons]
    by_cases hbig0 : max < w0.length
    · have hcond : max < (ChunkState.mk [] []).cur.length + w0.length := by
        show max < ([] : List Char).length + w0.length
        simp only [List.length_nil]
        omega
      have hstep := stepWord_nopush_big hcond rfl hbig0
      rw [hstep]
      have hge : 2 ≤ (ChunkState.mk
          ((ChunkState.mk [] []).chunks ++ sliceBy max w0)
          (ChunkState.mk [] []).cur).chunks.length := by
        show 2 ≤ ([] ++ sliceBy max w0).length
        rw [List.nil_append]
        exact sliceBy_length_ge_two hmax hbig0
      have hmono := @foldl_chunks_length_mono max (mid ++ [wL])
        (ChunkState.mk ((ChunkState.mk [] []).chunks ++ sliceBy max w0)
          (ChunkState.mk [] []).cur)
      have hfin := finChunks_length_ge ((mid ++ [wL]).foldl (stepWord max)
        (ChunkState.mk ((ChunkState.mk [] []).chunks ++ sliceBy max w0)
          (ChunkState.mk [] []).cur))
      omega
    · have hstep : stepWord max (ChunkState.mk [] []) w0 =
          ChunkState.mk (ChunkState.mk [] []).chunks
            ((ChunkState.mk [] []).cur ++ w0) := by
        apply stepWord_fits
        show ¬ max < ([] : List Char).length + w0.length
        simp only [List.length_nil]
        omega
      rw [hstep, List.foldl_append, List.foldl_cons, List.foldl_nil]
      have hcur1 : ((ChunkState.mk [] []).cur ++ w0).length ≤ max := by
        show (([] : List Char) ++ w0).length ≤ max
        rw [List.nil_append]
        omega
      have hinv := foldInv hmax mid
        (ChunkState.mk (ChunkState.mk [] []).chunks
          ((ChunkState.mk [] []).cur ++ w0)) w0
        hcur1
        (by
          intro _
          show ([] : List Char) ++ w0 = w0
          rw [List.nil_append])
        hfw0
      set stM := mid.foldl (stepWord max)
        (ChunkState.mk (ChunkState.mk [] []).chunks
          ((ChunkState.mk [] []).cur ++ w0)) with hstM
      have hcurM : stM.cur.length ≤ max := foldl_cur_le mid _ hcur1
      by_cases hov : max < stM.cur.length + wL.length
      · by_cases htM : trimC stM.cur = []
        · by_cases hchM : stM.chunks = []
          · exfalso
            have hcm := hinv hchM
            have hne2 : stM.cur.filter nonWS ≠ [] := by
              rw [hcm, List.filter_append]
              exact List.append_ne_nil_of_left_ne_nil hfw0 _
            exact hne2 (filter_eq_nil_of_trimC_eq_nil htM)
          · have h1 : 0 < stM.chunks.length := List.length_pos.mpr hchM
            by_cases hbigL : max < wL.length
            · rw [stepWord_nopush_big hov htM hbigL]
              have h2 : 0 < (sliceBy max wL).length :=
                List.length_pos.mpr (sliceBy_ne_nil hmax hwLne)
              have hge : 2 ≤ (ChunkState.mk (stM.chunks ++ sliceBy max wL)
                  stM.cur).chunks.length := by
                show 2 ≤ (stM.chunks ++ sliceBy max wL).length
                rw [List.length_append]
                omega
              have hfin := finChunks_length_ge
                (ChunkState.mk (stM.chunks ++ sliceBy max wL) stM.cur)
              omega
            · rw [stepWord_nopush_small hov htM hbigL]
              rw [@finChunks_length_push (ChunkState.mk stM.chunks wL) htrimWL]
              show 2 ≤ stM.chunks.length + 1
              omega
        · by_cases hbigL : max < wL.length
          · rw [stepWord_push_big hov htM hbigL]
            have h2 : 0 < (sliceBy max wL).length :=
              List.length_pos.mpr (sliceBy_ne_nil hmax hwLne)
            have hge : 2 ≤ (ChunkState.mk
                ((stM.chunks ++ [trimC stM.cur]) ++ sliceBy max wL)
                []).chunks.length := by
              show 2 ≤ ((stM.chunks ++ [trimC stM.cur]) ++ sliceBy max wL).length
              rw [List.length_append, List.length_append]
              simp only [List.length_cons, List.length_nil]
              omega
            have hfin := finChunks_length_ge (ChunkState.mk
              ((stM.chunks ++ [trimC stM.cur]) ++ sliceBy max wL) [])
            omega
          · rw [stepWord_push_small hov htM hbigL]
            rw [@finChunks_length_push
              (ChunkState.mk (stM.chunks ++ [trimC stM.cur]) wL) htrimWL]
            show 2 ≤ (stM.chunks ++ [trimC stM.cur]).length + 1
            rw [List.length_append]
            simp only [List.length_cons, List.length_nil]
            omega
      · rw [stepWord_fits hov]
        by_cases hchM : stM.chunks = []
        · exfalso
          have hcm := hinv hchM
          have hceq : stM.cur ++ wL = c0 :: cs0 := by
            rw [hcm]
            exact hflat3
          have hlen1 := congrArg List.length hceq
          rw [List.length_append] at hlen1
          rw [hm'] at hlong
          omega
        · have h1 : 0 < stM.chunks.length := List.length_pos.mpr hchM
          have htcw : trimC (stM.cur ++ wL) ≠ [] := by
            apply trimC_ne_nil_of_filter
            rw [List.filter_append, hwFilter]
            exact List.append_ne_nil_of_right_ne_nil _ hwLne
          rw [@finChunks_length_push
            (ChunkState.mk stM.chunks (stM.cur ++ wL)) htcw]
          show 2 ≤ stM.chunks.length + 1
          omega

/-- When the total part count is at least 2, no transmitted form starts with
`Part 1/1:` — the header's decimal fields cannot read `1/1`. -/
theorem decorate_no_part11 {p total : Nat} (htot : 2 ≤ total) (c : List Char) :
    ¬ (( "Part 1/1:").data <+: decorate p total c) := by
  intro h
  have hP : ( "Part ").data = 'P' :: 'a' :: 'r' :: 't' :: ' ' :: [] := rfl
  have hS : ( "/").data = '/' :: [] := rfl
  have hC : ( ":").data = ':' :: [] := rfl
  have hN : ( "\n\n").data = '\n' :: '\n' :: [] := rfl
  have h11 : ( "Part 1/1:").data =
      'P' :: 'a' :: 'r' :: 't' :: ' ' :: '1' :: '/' :: '1' :: ':' :: [] := rfl
  have hde : decorate p total c =
      'P' :: 'a' :: 'r' :: 't' :: ' ' ::
        (natDecimal p ++ ('/' ::
          (natDecimal total ++ (':' :: '\n' :: '\n' :: c)))) := by
    unfold decorate partHeader
    rw [hP, hS, hC, hN]
    simp [List.append_assoc]
  rw [hde, h11] at h
  rcases List.cons_prefix_cons.mp h with ⟨_, h⟩
  rcases List.cons_prefix_cons.mp h with ⟨_, h⟩
  rcases List.cons_prefix_cons.mp h with ⟨_, h⟩
  rcases List.cons_prefix_cons.mp h with ⟨_, h⟩
  rcases List.cons_prefix_cons.mp h with ⟨_, h⟩
  cases hdp : natDecimal p with
  | nil => exact natDecimal_ne_nil p hdp
  | cons d ds =>
    rw [hdp, List.cons_append] at h
    rcases List.cons_prefix_cons.mp h with ⟨hd1, h⟩
    cases ds with
    | nil =>
      rw [List.nil_append] at h
      rcases List.cons_prefix_cons.mp h with ⟨_, h⟩
      cases hdt : natDecimal total with
      | nil => exact natDecimal_ne_nil total hdt
      | cons e es =>
        rw [hdt, List.cons_append] at h
        rcases List.cons_prefix_cons.mp h with ⟨he1, h⟩
        cases es with
        | nil =>
          have htot1 : total = 1 := natDecimal_eq_one (by rw [hdt, ← he1])
          omega
        | cons e2 es' =>
          rw [List.cons_append] at h
          rcases List.cons_prefix_cons.mp h with ⟨he2, _⟩
          have hdig : e2.isDigit = true := by
            apply @natDecimal_digits total
            rw [hdt]
            exact List.mem_cons_of_mem _ (List.mem_cons_self _ _)
          rw [← he2] at hdig
          exact absurd hdig (by decide)
    | cons d2 ds' =>
      rw [List.cons_append] at h
      rcases List.cons_prefix_cons.mp h with ⟨hd2, _⟩
      have hdig : d2.isDigit = true := by
        apply @natDecimal_digits p
        rw [hdp]
        exact List.mem_cons_of_mem _ (List.mem_cons_self _ _)
      rw [← hd2] at hdig
      exact absurd hdig (by decide)

/-- C10: for every message whose trimmed form is non-empty and longer than
the effective maximum (so the chunked path runs), `splitMessageIntoChunks`
returns at least two chunks; consequently every transmitted form built in the
chunk loop carries a header `Part i/n:` with n ≥ 2 and a message headed
`Part 1/1:` is never sent. -/
theorem chunked_path_at_least_two_chunks (m : List Char)
    (h1 : trimC m ≠ [])
    (h2 : ¬ (trimC m).length ≤ TELEGRAM_MESSAGE_MAX_LENGTH - MESSAGE_SAFETY_BUFFER) :
    2 ≤ (messageChunks m).length ∧
      ∀ (oracle : Nat → TransportResult) (t : List Char),
        Event.call t ∈ (sendLongMessageToTelegram oracle m).2 →
        ¬ (( "Part 1/1:").data <+: t) := by
  have hge2 : 2 ≤ (messageChunks m).length := by
    show 2 ≤ (splitMessageIntoChunks (trimC m)
      (TELEGRAM_MESSAGE_MAX_LENGTH - MESSAGE_SAFETY_BUFFER)).length
    exact splitChunks_ge_two (by decide) m h1 (Nat.not_le.mp h2)
  refine ⟨hge2, ?_⟩
  intro oracle t ht
  rw [sendLong_chunked h1 h2] at ht
  rcases sendChunksLoop_calls _ 0 [] t ht with hm | ⟨pos, c, hc, htEq, _⟩
  · simp at hm
  · rw [htEq]
    exact decorate_no_part11 hge2 c

/-- C10, witness. -/
theorem chunked_path_at_least_two_chunks_witness :
    (trimC (List.replicate 3897 'a') ≠ [] ∧
      ¬ (trimC (List.replicate 3897 'a')).length ≤
        TELEGRAM_MESSAGE_MAX_LENGTH - MESSAGE_SAFETY_BUFFER) ∧
    (2 ≤ (messageChunks (List.replicate 3897 'a')).length ∧
      ∀ (oracle : Nat → TransportResult) (t : List Char),
        Event.call t ∈
          (sendLongMessageToTelegram oracle (List.replicate 3897 'a')).2 →
        ¬ (( "Part 1/1:").data <+: t)) :=
  ⟨⟨trimC_replicate_a_ne_nil (by decide), trimC_replicate_a_long (by decide)⟩,
    chunked_path_at_least_two_chunks _ (trimC_replicate_a_ne_nil (by decide))
      (trimC_replicate_a_long (by decide))⟩
